import Mathlib

/-!
# Verification of the StACSOS buddy page allocator, round-robin scheduler and `ls`

This development is a shallow embedding of

* `src/kernel/src/mem/page-allocator-buddy.cpp` (with
  `src/kernel/inc/stacsos/kernel/mem/page-allocator-buddy.h`),
* `src/kernel/src/sched/alg/rr.cpp`, and
* `src/user/ls/src/main.cpp`

together with proofs about the embedded code.

## Modelling conventions for the buddy allocator

* An allocator state is the array `free_list_[0 ..= LastOrder]` of intrusive
  free lists, materialised as a length-17 list whose entry at `order` is the
  list of base PFNs in link order (walking the in-page `next_free` chain from
  `free_list_[order]`).  `page *` values are identified with PFNs:
  `page::get_from_pfn` is an injective table lookup, so pointer equality and
  pointer ordering agree with PFN equality and ordering.
* The in-page `next_free` field of a page that heads a listed free block is
  exactly the successor link of its list, so it is recovered from the state
  by `nextFree` (scan the 17 lists for the page, return its successor
  there).  A page on no list reads as null: `remove_free_block` and
  `remove_buddies` clear `next_free` to `nullptr` on removal.
* C++ `u64` arithmetic is modelled on `Nat`; the one place where wrap-around
  matters (the overflow assertion of `insert_free_pages`) is modelled
  explicitly against `2^64 - 1`.
* `assert` halts the kernel.  The assertions whose claims are under test are
  modelled as `Option` guards (`insert_free_pages`, `free_pages_checked`);
  the internal list-shape assertions (`get_slot`, `get_candidate_slot`,
  alignment) are modelled as total no-ops, since no claim is about them.
* The C++ `while` loops are written as fuel recursion; every invocation
  passes a fuel that is at least the number of iterations the loop can
  perform (each loop is bounded by `LastOrder` steps or by the decrease of
  its counter), so the fuel-exhaustion branch coincides with the loop exit.
-/

namespace Buddy

/-- `LastOrder` from `page-allocator-buddy.h` (line 36): `static const int LastOrder = 16`. -/
def LastOrder : Nat := 16

/-- The allocator state: entry `order` is `free_list_[order]`, the base PFNs
of that order's free blocks in link order.  Well-formed states have length
`LastOrder + 1 = 17`. -/
abbrev State : Type := List (List Nat)

/-- Read `free_list_[order]` (an out-of-range index reads as an empty list). -/
def getO (s : State) (order : Nat) : List Nat :=
  List.getD s order []

/-- Write `free_list_[order]`. -/
def setO (s : State) (order : Nat) (l : List Nat) : State :=
  List.set s order l

/-- A freshly constructed allocator: the constructor nulls every list head. -/
def initState : State := List.replicate (LastOrder + 1) []

/-- `get_slot` followed by the two-pointer splice of `insert_free_block`:
walk the list while the current entry's PFN is below the new block's, then
link the new block in at that position (lines 350-367 and 278-286). -/
def insertSorted (b : Nat) : List Nat → List Nat
  | [] => [b]
  | x :: xs => if x < b then x :: insertSorted b xs else b :: x :: xs

/-- `get_candidate_slot` followed by the splice of `remove_free_block`: walk
until the entry is the block, then bypass it (lines 376-394 and 294-302). -/
def removeFirst (b : Nat) : List Nat → List Nat
  | [] => []
  | x :: xs => if x = b then xs else x :: removeFirst b xs

/-- `insert_buddies` (lines 311-321): find the slot for the lower buddy and
link `first -> second -> *slot` in one splice. -/
def insertBuddies (first second : Nat) : List Nat → List Nat
  | [] => [first, second]
  | x :: xs => if x < first then x :: insertBuddies first second xs
               else first :: second :: x :: xs

/-- `remove_buddies` (lines 329-341): find the lower buddy, then bypass it
and the block its `next_free` points at (its list successor). -/
def removeBuddies (first : Nat) : List Nat → List Nat
  | [] => []
  | x :: xs => if x = first then xs.tail else x :: removeBuddies first xs

/-- The successor of `p` in one free list (the value of `p`'s in-page
`next_free` link when `p` heads a block listed there). -/
def succAfter (p : Nat) : List Nat → Option Nat
  | [] => none
  | x :: xs => if x = p then xs.head? else succAfter p xs

/-- Read `page_metadata::next_free` of page `p` from the state: the successor
of `p` in the (for invariant-satisfying states, unique) free list containing
`p`; null when `p` is on no list (removal nulls the field). -/
def nextFree (s : State) (p : Nat) : Option Nat :=
  match (List.range (LastOrder + 1)).find? (fun n => (getO s n).contains p) with
  | some n => succAfter p (getO s n)
  | none => none

/-- `insert_free_block(order, block_start)` (lines 278-286). -/
def insert_free_block (s : State) (order b : Nat) : State :=
  setO s order (insertSorted b (getO s order))

/-- `remove_free_block(order, block_start)` (lines 294-302). -/
def remove_free_block (s : State) (order b : Nat) : State :=
  setO s order (removeFirst b (getO s order))

/-- `remove_buddies(order, block_start)` (lines 329-341). -/
def remove_buddies (s : State) (order first : Nat) : State :=
  setO s order (removeBuddies first (getO s order))

/-- `insert_buddies(order, first_block, second_block)` (lines 311-321). -/
def insert_buddies (s : State) (order first second : Nat) : State :=
  setO s order (insertBuddies first second (getO s order))

/-- `get_buddy` (header line 52): XOR the PFN with the block size. -/
def get_buddy (order b : Nat) : Nat := b ^^^ 2 ^ order

/-- `merge_buddies(order, buddy)` (lines 228-251): locate the buddy, order
the pair by PFN, test `get_next_free(&first) != &second`, and on success
remove the pair from `order` and insert the whole block at `order + 1`.
Returns the merged block's base (or null) with the new state. -/
def merge_buddies (s : State) (order b : Nat) : Option Nat × State :=
  let b2 := get_buddy order b
  let first := if b < b2 then b else b2
  let second := if b < b2 then b2 else b
  if nextFree s first = some second then
    (some first, insert_free_block (remove_buddies s order first) (order + 1) first)
  else
    (none, s)

/-- `iterative_merge(order, buddy_ptr)` (lines 174-182): while the previous
merge produced a block and `order < LastOrder`, merge again one order up.
Fuel-recursive; the loop runs at most `LastOrder - order` times, so fuel
`LastOrder` is enough for any start `order`. -/
def mergeUp : Nat → Nat → Option Nat → State → State
  | 0, _, _, s => s
  | fuel + 1, order, ob, s =>
    match ob with
    | none => s
    | some b =>
      if order < LastOrder then
        let r := merge_buddies s order b
        mergeUp fuel (order + 1) r.1 r.2
      else s

/-- `iterative_merge` entry point as called by `free_pages`. -/
def iterative_merge (s : State) (order : Nat) (ob : Option Nat) : State :=
  mergeUp LastOrder order ob s

/-- `free_pages(block_start, order)` body (lines 152-161), after its order
assertion has passed: insert the block, then merge upwards. -/
def free_pages (s : State) (b : Nat) (order : Nat) : State :=
  iterative_merge (insert_free_block s order b) order (some b)

/-- `free_pages` together with its `assert(order >= 0 && order <= LastOrder)`
(line 155); `none` is the halted kernel.  The order is `Int`, as in C++. -/
def free_pages_checked (s : State) (b : Nat) (order : Int) : Option State :=
  if 0 ≤ order ∧ order ≤ (LastOrder : Int) then some (free_pages s b order.toNat)
  else none

/-- `split_block(order, block_start)` (lines 259-270). -/
def split_block (s : State) (order b : Nat) : State :=
  insert_buddies (remove_free_block s order b) (order - 1) b (b + 2 ^ (order - 1))

/-- The upward scan of `iterative_split` (lines 202-205): first order in
`[o, LastOrder]` with a non-empty list, else `LastOrder + 1`.  Fuel
`LastOrder + 1` covers every start `o`. -/
def findUp : Nat → Nat → State → Nat
  | 0, o, _ => o
  | fuel + 1, o, s =>
    if o ≤ LastOrder then (if getO s o = [] then findUp fuel (o + 1) s else o)
    else o

/-- The downward split loop of `iterative_split` (lines 213-216): while
`order > target`, split the head block of `order` one order down.  Fuel
`LastOrder` covers every start `order ≤ LastOrder`. -/
def splitDown (target : Nat) : Nat → Nat → State → State
  | 0, _, s => s
  | fuel + 1, o, s =>
    if target < o then
      match (getO s o).head? with
      | some b => splitDown target fuel (o - 1) (split_block s o b)
      | none => s
    else s

/-- `iterative_split(target_order)` (lines 191-219). -/
def iterative_split (s : State) (target : Nat) : Option Nat × State :=
  match (getO s target).head? with
  | some p => (some p, s)
  | none =>
    let o := findUp (LastOrder + 1) (target + 1) s
    if o > LastOrder then (none, s)
    else
      let s' := splitDown target LastOrder o s
      ((getO s' target).head?, s')

/-- `allocate_pages(order, flags)` (lines 120-144), free-list part: range
check, `iterative_split`, then `remove_free_block` on the chosen block.  The
`ZERO`-flag path is the memory extension `allocate_pages_mem` below. -/
def allocate_pages (s : State) (order : Int) : Option Nat × State :=
  if order < 0 ∨ (LastOrder : Int) < order then (none, s)
  else
    match iterative_split s order.toNat with
    | (none, s') => (none, s')
    | (some p, s') => (some p, remove_free_block s' order.toNat p)

/-- `UNIT64_MAX` (line 17): `18446744073709551615 = 2^64 - 1`. -/
def U64MAX : Nat := 2 ^ 64 - 1

/-- Loop 1 of `insert_free_pages` (lines 77-89): sweep the low bits of the
PFN, carving one block per set bit through `free_pages`.  At most
`LastOrder` iterations (the guard keeps `order < LastOrder`). -/
def insertLoop1 : Nat → Nat → Nat → Nat → Nat → State → State × Nat × Nat × Nat × Nat
  | 0, order, lsb, pfn, count, s => (s, order, lsb, pfn, count)
  | fuel + 1, order, lsb, pfn, count, s =>
    if lsb ≤ count ∧ order < LastOrder then
      if lsb &&& pfn ≠ 0 then
        insertLoop1 fuel (order + 1) (2 * lsb) (pfn + lsb) (count - lsb)
          (free_pages s pfn order)
      else
        insertLoop1 fuel (order + 1) (2 * lsb) pfn count s
    else (s, order, lsb, pfn, count)

/-- Loop 2 of `insert_free_pages` (lines 92-96): while *strictly more* than
`2^LastOrder` pages remain, emit one `LastOrder` block directly (no merge).
The counter drops by `2^LastOrder ≥ 1` each round, so fuel `count`
suffices. -/
def insertLoop2 : Nat → Nat → Nat → State → State × Nat × Nat
  | 0, pfn, count, s => (s, pfn, count)
  | fuel + 1, pfn, count, s =>
    if 2 ^ LastOrder < count then
      insertLoop2 fuel (pfn + 2 ^ LastOrder) (count - 2 ^ LastOrder)
        (insert_free_block s LastOrder pfn)
    else (s, pfn, count)

/-- Loop 3 of `insert_free_pages` (lines 101-110): shift `lsb` back down,
carving one block per set bit of the remaining count.  `lsb` halves each
round from at most `2^LastOrder`, so fuel `LastOrder + 1` suffices. -/
def insertLoop3 : Nat → Nat → Nat → Nat → Nat → State → State
  | 0, _, _, _, _, s => s
  | fuel + 1, order, lsb, pfn, count, s =>
    if 0 < lsb then
      let lsb' := lsb / 2
      let order' := order - 1
      if lsb' &&& count ≠ 0 then
        insertLoop3 fuel order' lsb' (pfn + lsb') count (free_pages s pfn order')
      else
        insertLoop3 fuel order' lsb' pfn count s
    else s

/-- The body of `insert_free_pages` after the overflow assertion has passed:
the three loops in sequence, threading `order`/`lsb` from loop 1 and
`pfn`/`count` through loop 2 into loop 3. -/
def insert_body (s : State) (pfn count : Nat) : State :=
  let r1 := insertLoop1 LastOrder 0 1 pfn count s
  let r2 := insertLoop2 r1.2.2.2.2 r1.2.2.2.1 r1.2.2.2.2 r1.1
  insertLoop3 (LastOrder + 1) r1.2.1 r1.2.2.1 r2.2.1 r2.2.2 r2.1

/-- `insert_free_pages(range_start, page_count)` (lines 62-111) with its
overflow assertion `assert(pfn < (UNIT64_MAX - page_count))` (line 70);
`none` is the halted kernel. -/
def insert_free_pages (s : State) (pfn count : Nat) : Option State :=
  if pfn < U64MAX - count then some (insert_body s pfn count) else none

end Buddy

namespace RR

/-- State of the round-robin scheduler: the run queue plus the
`current_task` slot of `rr.cpp`.  TCB pointers are task identifiers
(`tcb *` values are distinct per task; the slot's `task` field may be null).
The run queue itself is declared in the (absent) `rr.h`; modelled from the
spec: a FIFO — `enqueue` appends at the tail, `pop` removes the head,
`remove` deletes the given element, `empty` tests emptiness. -/
structure RRState where
  queue : List Nat
  task : Option Nat
  to_remove : Bool
deriving DecidableEq

/-- `round_robin::add_to_runqueue` (rr.cpp lines 18-21). -/
def add_to_runqueue (s : RRState) (t : Nat) : RRState :=
  { s with queue := s.queue ++ [t] }

/-- `round_robin::remove_from_runqueue` (rr.cpp lines 23-34): if the target
is the current task, only set the deferred-removal flag; otherwise delete it
from the run queue. -/
def remove_from_runqueue (s : RRState) (t : Nat) : RRState :=
  if s.task = some t then { s with to_remove := true }
  else { s with queue := s.queue.erase t }

/-- `round_robin::select_next_task` (rr.cpp lines 36-57).  The C++ parameter
`current` is unused by the body (it reads the `current_task` field), so it is
omitted.  The inner `[]` match arm is unreachable: the queue extended with at
most one task is nonempty in that branch. -/
def select_next_task (s : RRState) : Option Nat × RRState :=
  if s.queue = [] then
    if s.to_remove then (none, { queue := s.queue, task := none, to_remove := false })
    else (s.task, s)
  else
    let q1 := if s.to_remove = false ∧ s.task ≠ none then s.queue ++ s.task.toList
              else s.queue
    match q1 with
    | [] => (none, { queue := [], task := none, to_remove := false })
    | h :: rest => (some h, { queue := rest, task := some h, to_remove := false })

/-- The scenario of claim C8: tasks A = 0, B = 1, C = 2; current task A with
run queue `[B, C]`. -/
def c8Start : RRState := ⟨[1, 2], some 0, false⟩

/-- Scheduler states of the C8 scenario: after `remove_from_runqueue(A)`,
then after each successive `select_next_task`. -/
def c8State : Nat → RRState
  | 0 => remove_from_runqueue c8Start 0
  | k + 1 => (select_next_task (c8State k)).2

/-- The task returned by the `(k+1)`-st `select_next_task` of the scenario. -/
def c8Out (k : Nat) : Option Nat := (select_next_task (c8State k)).1

end RR

namespace Ls

/-- `file_type` from `stacsos/dirent.h`. -/
inductive file_type : Type
  | file
  | directory
deriving DecidableEq

/-- A directory entry (`struct dirent`); `name` is the contents of the
`char name[100]` C string up to its NUL terminator. -/
structure dirent where
  name : List Char
  type : file_type
  size : Nat
deriving DecidableEq

/-- The hidden-file test of `ls` (main.cpp line 81): `entry.name[0] != '.'`
negated.  An empty name reads its NUL terminator, which is not `'.'`. -/
def isHidden (e : dirent) : Bool :=
  match e.name with
  | '.' :: _ => true
  | _ => false

/-- The classification loop of `ls` (main.cpp lines 62-91): every non-hidden
entry is appended to `files` when its type is `file`, otherwise to
`directories`, in the order delivered by `readdir`.  The chunked reads
(10 entries per `readdir` call) deliver the directory's entries in order, so
they are flattened into one list. -/
def classifyStep (acc : List dirent × List dirent) (e : dirent) :
    List dirent × List dirent :=
  if isHidden e then acc
  else if e.type = file_type.file then (acc.1, acc.2 ++ [e])
  else (acc.1 ++ [e], acc.2)

/-- See `classifyStep`. -/
def classify (es : List dirent) : List dirent × List dirent :=
  es.foldl classifyStep ([], [])

/-- The output phase of `ls` (main.cpp lines 98-133): in formatted (`-f`) and
plain mode alike, print every collected directory entry, then every collected
file entry; the flag only changes each line's decoration, not the sequence of
entries printed. -/
def ls_printed (formatted : Bool) (es : List dirent) : List dirent :=
  (classify es).1 ++ (classify es).2

end Ls

namespace Buddy

/-- `PAGE_SIZE = 2^PAGE_BITS` with `PAGE_BITS = 12` (spec section 8; `page.h`
is not under `src/`). -/
def PAGE_SIZE : Nat := 4096

/-- Modelled from the spec: `memops::pzero` (declared in `stacsos/memops.h`,
implementation not under `src/`) zeroes the given number of pages of bytes
starting at the given byte address -- "the entire block is zeroed before
return". -/
def pzero (mem : Nat → Nat) (base pages : Nat) : Nat → Nat :=
  fun a => if base ≤ a ∧ a < base + pages * PAGE_SIZE then 0 else mem a

/-- `allocate_pages` together with its `ZERO`-flag path (lines 139-141):
physical memory is a byte map, and on success with the flag set,
`memops::pzero(chosen->base_address_ptr(), 1 << order)` zeroes the block.
The flag test `(flags & zero) == zero` is modelled as the Boolean "the ZERO
bit is set in `flags`"; the enum's numeric values live in `page-allocator.h`,
which is not under `src/`. -/
def allocate_pages_mem (s : State) (mem : Nat → Nat) (order : Int)
    (zero : Bool) : Option Nat × State × (Nat → Nat) :=
  let r := allocate_pages s order
  match r.1 with
  | none => (none, r.2, mem)
  | some p =>
    (some p, r.2, if zero then pzero mem (p * PAGE_SIZE) (2 ^ order.toNat) else mem)

/-- The byte range of an order-`n` block based at PFN `b` covers page `a`. -/
def inBlock (b n a : Nat) : Prop := b ≤ a ∧ a < b + 2 ^ n

/-- Page `a` is covered by some listed free block (the free footprint). -/
def inFree (s : State) (a : Nat) : Prop :=
  ∃ n, n ≤ LastOrder ∧ ∃ p ∈ getO s n, inBlock p n a

/-- P1 of the spec: each free list is strictly PFN-ascending (hence without
duplicates). -/
def Sorted16 (s : State) : Prop :=
  ∀ n, n ≤ LastOrder → List.Pairwise (· < ·) (getO s n)

/-- P2 of the spec: every listed block is order-aligned. -/
def Aligned16 (s : State) : Prop :=
  ∀ n, n ≤ LastOrder → ∀ p ∈ getO s n, 2 ^ n ∣ p

/-- P3 of the spec: no two order-`n` buddies are simultaneously free for any
`n < LastOrder`. -/
def NoFreeBuddies (s : State) : Prop :=
  ∀ n, n < LastOrder → ∀ p ∈ getO s n, get_buddy n p ∉ getO s n

/-- The page ranges of blocks `(p, n)` and `(q, m)` do not overlap. -/
def blockDisj (p n q m : Nat) : Prop := p + 2 ^ n ≤ q ∨ q + 2 ^ m ≤ p

/-- Any two distinct listed blocks occupy disjoint page ranges (this is the
"every free block appears in exactly one free list" global invariant,
strengthened to full disjointness of block extents). -/
def DisjFree (s : State) : Prop :=
  ∀ n, n ≤ LastOrder → ∀ m, m ≤ LastOrder → ∀ p ∈ getO s n, ∀ q ∈ getO s m,
    (n = m ∧ p = q) ∨ blockDisj p n q m

/-- The allocator's global state invariant: well-formed list array plus
P1, P2, disjointness and P3. -/
def Inv (s : State) : Prop :=
  s.length = LastOrder + 1 ∧ Sorted16 s ∧ Aligned16 s ∧ DisjFree s ∧ NoFreeBuddies s

/-- Page `a` is covered by a block of the allocated-block list `A`. -/
def inAllocd (A : List (Nat × Nat)) (a : Nat) : Prop :=
  ∃ bn ∈ A, inBlock bn.1 bn.2 a

/-- The bookkeeping invariant for allocated blocks: every handed-out block is
in range, order-aligned, disjoint from every free block, and the handed-out
blocks are pairwise disjoint. -/
def AllocOk (s : State) (A : List (Nat × Nat)) : Prop :=
  (∀ bn ∈ A, bn.2 ≤ LastOrder ∧ 2 ^ bn.2 ∣ bn.1
      ∧ ∀ m, m ≤ LastOrder → ∀ q ∈ getO s m, blockDisj bn.1 bn.2 q m)
  ∧ A.Pairwise (fun x y => blockDisj x.1 x.2 y.1 y.2)

/-- States reachable from a fresh allocator by public calls that respect the
stated preconditions, together with the ghost list of currently allocated
blocks: `insert_free_pages` requires the inserted range untracked (neither
free nor allocated) and a passing overflow assertion; `free_pages` requires a
block that is currently allocated at exactly that order. -/
inductive reach : State → List (Nat × Nat) → Prop
  | init : reach initState []
  | insert (s A pfn count s') : reach s A →
      (∀ a, pfn ≤ a → a < pfn + count → ¬ inFree s a ∧ ¬ inAllocd A a) →
      insert_free_pages s pfn count = some s' →
      reach s' A
  | alloc (s A order p s₁) : reach s A →
      allocate_pages s order = (some p, s₁) →
      reach s₁ ((p, order.toNat) :: A)
  | allocFail (s A order s₁) : reach s A →
      allocate_pages s order = (none, s₁) →
      reach s₁ A
  | free (s A b n) : reach s A → (b, n) ∈ A →
      reach (free_pages s b n) (A.erase (b, n))

end Buddy

namespace Ls

/-- Non-hidden entries of directory type (the `else` branch of the
classification: with two constructors, not-`file` is `directory`). -/
def isDirEntry (e : dirent) : Bool :=
  !isHidden e && decide (e.type = file_type.directory)

/-- Non-hidden entries of file type. -/
def isFileEntry (e : dirent) : Bool :=
  !isHidden e && decide (e.type = file_type.file)

theorem classify_foldl (es : List dirent) : ∀ (d f : List dirent),
    es.foldl classifyStep (d, f) =
      (d ++ es.filter isDirEntry, f ++ es.filter isFileEntry) := by
  induction es with
  | nil => intro d f; simp
  | cons e es ih =>
    intro d f
    simp only [List.foldl_cons, List.filter_cons]
    by_cases h1 : isHidden e
    · have hd : isDirEntry e = false := by simp [isDirEntry, h1]
      have hf : isFileEntry e = false := by simp [isFileEntry, h1]
      simp only [classifyStep, h1, if_true, hd, hf, Bool.false_eq_true, if_false]
      exact ih d f
    · by_cases h2 : e.type = file_type.file
      · have hd : isDirEntry e = false := by
          simp [isDirEntry, h2]
        have hf : isFileEntry e = true := by simp [isFileEntry, h1, h2]
        simp only [classifyStep, h1, if_false, h2, if_true, hd, hf,
          Bool.false_eq_true]
        rw [ih]
        simp
      · have hd : isDirEntry e = true := by
          have : e.type = file_type.directory := by
            cases h : e.type
            · exact absurd h h2
            · rfl
          simp [isDirEntry, h1, this]
        have hf : isFileEntry e = false := by simp [isFileEntry, h2]
        simp only [classifyStep, h1, h2, if_false, hd, hf, Bool.false_eq_true]
        rw [ih]
        simp
end Ls

/-- C10: for every directory listing produced by `ls`, every entry whose name
begins with `'.'` is excluded from the output, in plain and in `-f` formatted
mode alike, and all non-hidden entries of directory type are printed before
any entries of file type: the printed sequence is exactly the non-hidden
directory-type entries in order, followed by the non-hidden file-type entries
in order. -/
theorem Ls.claim_C10 (formatted : Bool) (es : List Ls.dirent) :
    (∀ e ∈ Ls.ls_printed formatted es, Ls.isHidden e = false)
    ∧ Ls.ls_printed formatted es
        = es.filter Ls.isDirEntry ++ es.filter Ls.isFileEntry := by
  have h : Ls.ls_printed formatted es
      = es.filter Ls.isDirEntry ++ es.filter Ls.isFileEntry := by
    unfold Ls.ls_printed Ls.classify
    rw [Ls.classify_foldl]
    simp
  refine ⟨?_, h⟩
  intro e he
  rw [h] at he
  rcases List.mem_append.1 he with h' | h'
  · have := (List.mem_filter.1 h').2
    simp only [Ls.isDirEntry, Bool.and_eq_true, Bool.not_eq_true'] at this
    exact this.1
  · have := (List.mem_filter.1 h').2
    simp only [Ls.isFileEntry, Bool.and_eq_true, Bool.not_eq_true'] at this
    exact this.1

namespace RR

theorem c8_cases (k : Nat) :
    c8State k = ⟨[1, 2], some 0, true⟩ ∨ c8State k = ⟨[2], some 1, false⟩
    ∨ c8State k = ⟨[1], some 2, false⟩ := by
  induction k with
  | zero => left; decide
  | succ k ih =>
    have hs : c8State (k + 1) = (select_next_task (c8State k)).2 := rfl
    rcases ih with h | h | h
    · right; left; rw [hs, h]; decide
    · right; right; rw [hs, h]; decide
    · right; left; rw [hs, h]; decide

theorem c8_periodic (k : Nat) : c8State (2 * k + 1) = ⟨[2], some 1, false⟩ := by
  induction k with
  | zero => decide
  | succ k ih =>
    have h1 : 2 * (k + 1) + 1 = (2 * k + 1) + 1 + 1 := by ring
    have hs : ∀ j, c8State (j + 1) = (select_next_task (c8State j)).2 :=
      fun j => rfl
    rw [h1, hs, hs, ih]
    decide

end RR

/-- C8: in the round-robin scheduler with current task A = 0 and run queue
[B, C] = [1, 2], `remove_from_runqueue(A)` only sets the deferred-removal
flag and leaves the queue untouched; the next `select_next_task` returns B
and leaves the queue [C] with A not re-enqueued; thereafter the outputs
rotate C, B, C, B, … and A is never returned again. -/
theorem RR.claim_C8 :
    RR.remove_from_runqueue RR.c8Start 0 = ⟨[1, 2], some 0, true⟩
    ∧ RR.c8Out 0 = some 1
    ∧ RR.c8State 1 = ⟨[2], some 1, false⟩
    ∧ (∀ k, RR.c8Out (2 * k + 1) = some 2 ∧ RR.c8Out (2 * k + 2) = some 1)
    ∧ (∀ k, RR.c8Out k ≠ some 0) := by
  refine ⟨by decide, by decide, by decide, fun k => ?_, fun k => ?_⟩
  · have h := RR.c8_periodic k
    constructor
    · show (RR.select_next_task (RR.c8State (2 * k + 1))).1 = some 2
      rw [h]; decide
    · show (RR.select_next_task (RR.c8State (2 * k + 2))).1 = some 1
      have h2 : 2 * k + 2 = (2 * k + 1) + 1 := by ring
      have hs : RR.c8State ((2 * k + 1) + 1)
          = (RR.select_next_task (RR.c8State (2 * k + 1))).2 := rfl
      rw [h2, hs, h]; decide
  · rcases RR.c8_cases k with h | h | h <;>
      (show (RR.select_next_task (RR.c8State k)).1 ≠ some 0; rw [h]; decide)

/-- C9: for every scheduler state, immediately after `select_next_task`
returns, the `to_remove` flag of the current-task slot is false. -/
theorem RR.claim_C9 (s : RR.RRState) :
    ((RR.select_next_task s).2).to_remove = false := by
  rcases s with ⟨q, t, r⟩
  cases q with
  | nil => cases r <;> simp [RR.select_next_task]
  | cons h rest =>
    cases r <;> cases t <;>
      simp [RR.select_next_task]

namespace Buddy

theorem getO_initState (n : Nat) : getO initState n = [] := by
  unfold getO initState
  rcases Nat.lt_or_ge n (LastOrder + 1) with h | h
  · rw [List.getD_eq_getElem?_getD, List.getElem?_replicate, if_pos h]
    rfl
  · rw [List.getD_eq_getElem?_getD, List.getElem?_replicate, if_neg (Nat.not_lt.2 h)]
    rfl

end Buddy

/-- C1: claimed behaviour -- `insert_free_pages(pfn=0, count=2^16)` on a
fresh allocator followed by `allocate_pages(order=0)` returns the page at
PFN 0 and leaves one block at each order 0..15.  The code does the opposite:
the low-order sweep stops at `order < LastOrder`, the cap loop requires
*strictly more* than `2^LastOrder` remaining pages, and the high-order sweep
only examines bits below `LastOrder`, so a remaining count of exactly
`2^16` is never inserted at all: the state after the insert is the fresh
(all-empty) state, and the subsequent allocation returns null. -/
theorem Buddy.claim_C1 :
    Buddy.insert_free_pages Buddy.initState 0 (2 ^ 16) = some Buddy.initState
    ∧ (∀ n, Buddy.getO Buddy.initState n = [])
    ∧ (Buddy.allocate_pages Buddy.initState 0).1 = none := by
  refine ⟨by decide, Buddy.getO_initState, by decide⟩

/-- C7 as stated is false: the assertion `pfn < UNIT64_MAX - page_count`
also halts on a pair whose sum is exactly `2^64 - 1`, which does not wrap
the unsigned 64-bit range.  Concretely, `pfn = 2^64 - 1`, `count = 0`. -/
theorem Buddy.claim_C7_counterexample :
    (2 ^ 64 - 1) + 0 < 2 ^ 64
    ∧ Buddy.insert_free_pages Buddy.initState (2 ^ 64 - 1) 0 = none := by
  refine ⟨by norm_num, ?_⟩
  have h : ¬ ((2 ^ 64 - 1) < Buddy.U64MAX - 0) := by
    unfold Buddy.U64MAX
    omega
  unfold Buddy.insert_free_pages
  rw [if_neg h]

/-- C7 (amended): `insert_free_pages(range_start, page_count)` halts on its
overflow assertion exactly when `range_start.pfn + page_count ≥ 2^64 - 1`,
i.e. when the sum would wrap the unsigned 64-bit range *or* equals exactly
`2^64 - 1`; for every pair whose sum is strictly below `2^64 - 1` the
assertion passes and insertion proceeds. -/
theorem Buddy.claim_C7 (s : Buddy.State) (pfn count : Nat) :
    Buddy.insert_free_pages s pfn count = none ↔ 2 ^ 64 - 1 ≤ pfn + count := by
  unfold Buddy.insert_free_pages Buddy.U64MAX
  by_cases h : pfn < 2 ^ 64 - 1 - count
  · rw [if_pos h]
    simp only [reduceCtorEq, false_iff]
    omega
  · rw [if_neg h]
    simp only [true_iff]
    omega

/-- Witness for C7 (amended): a pair summing to at least `2^64 - 1` halts,
and a small pair passes. -/
theorem Buddy.claim_C7_witness :
    Buddy.insert_free_pages Buddy.initState (2 ^ 64) 5 = none
    ∧ Buddy.insert_free_pages Buddy.initState 3 10 ≠ none := by
  constructor
  · exact (Buddy.claim_C7 Buddy.initState (2 ^ 64) 5).2 (by norm_num)
  · intro h
    have := (Buddy.claim_C7 Buddy.initState 3 10).1 h
    norm_num at this

/-- C6: whenever `allocate_pages` is called with the ZERO flag set and
returns a block, every byte of the returned block -- all `2^order` pages,
i.e. `2^order * PAGE_SIZE` bytes from the block's base address -- reads as
zero when the call returns. -/
theorem Buddy.claim_C6 (s : Buddy.State) (mem : Nat → Nat) (order : Int)
    (zero : Bool) (p : Nat)
    (hp : (Buddy.allocate_pages_mem s mem order zero).1 = some p)
    (hz : zero = true) :
    ∀ a, p * Buddy.PAGE_SIZE ≤ a →
      a < p * Buddy.PAGE_SIZE + 2 ^ order.toNat * Buddy.PAGE_SIZE →
      (Buddy.allocate_pages_mem s mem order zero).2.2 a = 0 := by
  intro a ha1 ha2
  rcases hr : (Buddy.allocate_pages s order).1 with _ | q
  · simp only [Buddy.allocate_pages_mem, hr] at hp
    exact absurd hp (by simp)
  · simp only [Buddy.allocate_pages_mem, hr, Option.some.injEq] at hp
    subst hp
    simp only [Buddy.allocate_pages_mem, hr, hz, if_true]
    unfold Buddy.pzero
    exact if_pos ⟨ha1, ha2⟩

/-- Witness for C6: allocating the single order-0 block at PFN 5 with the
ZERO flag zeroes its page. -/
theorem Buddy.claim_C6_witness :
    (Buddy.allocate_pages_mem (Buddy.insert_free_block Buddy.initState 0 5)
        (fun _ => 7) 0 true).2.2 20480 = 0 :=
  Buddy.claim_C6 (Buddy.insert_free_block Buddy.initState 0 5) (fun _ => 7)
    0 true 5 (by decide) rfl 20480 (by norm_num [Buddy.PAGE_SIZE])
    (by norm_num [Buddy.PAGE_SIZE])

namespace Buddy

theorem length_setO (s : State) (n : Nat) (l : List Nat) :
    (setO s n l).length = s.length := by
  unfold setO
  exact List.length_set s n l

theorem getO_setO_self {s : State} {n : Nat} (l : List Nat) (h : n < s.length) :
    getO (setO s n l) n = l := by
  unfold getO setO
  rw [List.getD_eq_getElem?_getD, List.getElem?_set_eq_of_lt l h]
  rfl

theorem getO_setO_ne {s : State} {n m : Nat} (l : List Nat) (h : m ≠ n) :
    getO (setO s n l) m = getO s m := by
  unfold getO setO
  rw [List.getD_eq_getElem?_getD, List.getElem?_set_ne (fun he => h he.symm),
    ← List.getD_eq_getElem?_getD]

theorem lt_length_of_getO_ne_nil {s : State} {n : Nat} (h : getO s n ≠ []) :
    n < s.length := by
  by_contra hn
  push_neg at hn
  apply h
  unfold getO
  rw [List.getD_eq_getElem?_getD, List.getElem?_eq_none hn]
  rfl

theorem insertSorted_ne_nil (b : Nat) (l : List Nat) : insertSorted b l ≠ [] := by
  cases l with
  | nil => simp [insertSorted]
  | cons x xs =>
    simp only [insertSorted]
    split <;> simp

theorem insertBuddies_ne_nil (f sec : Nat) (l : List Nat) :
    insertBuddies f sec l ≠ [] := by
  cases l with
  | nil => simp [insertBuddies]
  | cons x xs =>
    simp only [insertBuddies]
    split <;> simp

theorem splitDown_stop (t fuel o : Nat) (s : State) (h : ¬ t < o) :
    splitDown t fuel o s = s := by
  cases fuel with
  | zero => rfl
  | succ fuel =>
    show (if t < o then _ else s) = s
    rw [if_neg h]

theorem findUp_spec : ∀ (fuel o : Nat) (s : State),
    LastOrder + 1 - o ≤ fuel → o ≤ LastOrder + 1 →
    (findUp fuel o s = LastOrder + 1
       ∧ ∀ k, o ≤ k → k ≤ LastOrder → getO s k = [])
    ∨ (o ≤ findUp fuel o s ∧ findUp fuel o s ≤ LastOrder
       ∧ getO s (findUp fuel o s) ≠ []
       ∧ ∀ k, o ≤ k → k < findUp fuel o s → getO s k = []) := by
  intro fuel
  induction fuel with
  | zero =>
    intro o s h ho
    have he : o = LastOrder + 1 := by omega
    subst he
    left
    exact ⟨rfl, fun k hk1 hk2 => absurd hk1 (by omega)⟩
  | succ fuel ih =>
    intro o s h ho
    by_cases h1 : o ≤ LastOrder
    · by_cases h2 : getO s o = []
      · have heq : findUp (fuel + 1) o s = findUp fuel (o + 1) s := by
          show (if o ≤ LastOrder then (if getO s o = [] then findUp fuel (o + 1) s else o)
                else o) = _
          rw [if_pos h1, if_pos h2]
        rw [heq]
        rcases ih (o + 1) s (by omega) (by omega) with ⟨ha, hb⟩ | ⟨ha, hb, hc, hd⟩
        · left
          refine ⟨ha, fun k hk1 hk2 => ?_⟩
          rcases Nat.eq_or_lt_of_le hk1 with he | he
          · rw [← he]; exact h2
          · exact hb k (by omega) hk2
        · right
          refine ⟨by omega, hb, hc, fun k hk1 hk2 => ?_⟩
          rcases Nat.eq_or_lt_of_le hk1 with he | he
          · rw [← he]; exact h2
          · exact hd k (by omega) hk2
      · right
        have heq : findUp (fuel + 1) o s = o := by
          show (if o ≤ LastOrder then (if getO s o = [] then findUp fuel (o + 1) s else o)
                else o) = _
          rw [if_pos h1, if_neg h2]
        rw [heq]
        exact ⟨Nat.le_refl o, h1, h2, fun k hk1 hk2 => absurd hk1 (by omega)⟩
    · have he : o = LastOrder + 1 := by omega
      have heq : findUp (fuel + 1) o s = o := by
        show (if o ≤ LastOrder then (if getO s o = [] then findUp fuel (o + 1) s else o)
              else o) = _
        rw [if_neg h1]
      left
      rw [heq, he]
      exact ⟨rfl, fun k hk1 hk2 => absurd hk1 (by omega)⟩

theorem splitDown_ne_nil : ∀ (fuel o : Nat) (s : State) (target : Nat),
    target < o → o - target ≤ fuel → getO s o ≠ [] →
    getO (splitDown target fuel o s) target ≠ [] := by
  intro fuel
  induction fuel with
  | zero =>
    intro o s t h1 h2 _
    exact absurd h1 (by omega)
  | succ fuel ih =>
    intro o s t h1 h2 h3
    obtain ⟨b, rest, hbr⟩ : ∃ b rest, getO s o = b :: rest := by
      cases hcl : getO s o with
      | nil => exact absurd hcl h3
      | cons b rest => exact ⟨b, rest, rfl⟩
    have hlen : o < s.length := lt_length_of_getO_ne_nil h3
    have hstep : splitDown t (fuel + 1) o s
        = splitDown t fuel (o - 1) (split_block s o b) := by
      show (if t < o then
              match (getO s o).head? with
              | some b => splitDown t fuel (o - 1) (split_block s o b)
              | none => s
            else s) = _
      rw [if_pos h1, hbr]
      rfl
    rw [hstep]
    have hsplen : (remove_free_block s o b).length = s.length := length_setO ..
    have hsp : getO (split_block s o b) (o - 1)
        = insertBuddies b (b + 2 ^ (o - 1)) (getO (remove_free_block s o b) (o - 1)) := by
      unfold split_block insert_buddies
      exact getO_setO_self _ (by omega)
    by_cases hto : t < o - 1
    · exact ih (o - 1) _ t hto (by omega) (by rw [hsp]; exact insertBuddies_ne_nil _ _ _)
    · have hte : t = o - 1 := by omega
      rw [splitDown_stop t fuel (o - 1) _ (by omega)]
      rw [hte, hsp]
      exact insertBuddies_ne_nil _ _ _

end Buddy

namespace Buddy

theorem iterative_split_none_iff (s : State) (t : Nat) (ht : t ≤ LastOrder) :
    (iterative_split s t).1 = none
      ↔ ∀ k, t ≤ k → k ≤ LastOrder → getO s k = [] := by
  rcases hh : (getO s t).head? with _ | p
  · have h0 : getO s t = [] := List.head?_eq_none_iff.1 hh
    rcases findUp_spec (LastOrder + 1) (t + 1) s (by omega) (by omega) with
      ⟨ha, hb⟩ | ⟨ha, hb, hc, hd⟩
    · have hres : (iterative_split s t).1 = none := by
        simp only [iterative_split, hh, ha]
        norm_num
      rw [hres]
      constructor
      · intro _ k hk1 hk2
        rcases Nat.eq_or_lt_of_le hk1 with he | he
        · rw [← he]; exact h0
        · exact hb k (by omega) hk2
      · intro _; rfl
    · have hne : (iterative_split s t).1 ≠ none := by
        simp only [iterative_split, hh]
        rw [if_neg (by omega : ¬ findUp (LastOrder + 1) (t + 1) s > LastOrder)]
        have hsd := splitDown_ne_nil LastOrder (findUp (LastOrder + 1) (t + 1) s) s t
          (by omega) (by omega) hc
        simpa [List.head?_eq_none_iff] using hsd
      constructor
      · intro hcontra; exact absurd hcontra hne
      · intro hall
        exact absurd (hall _ (by omega) hb) hc
  · have hres : (iterative_split s t).1 = some p := by
      simp only [iterative_split, hh]
    rw [hres]
    constructor
    · intro hcontra; exact absurd hcontra (by simp)
    · intro hall
      have := hall t (Nat.le_refl t) ht
      rw [this] at hh
      exact absurd hh (by simp)

end Buddy

/-- C5: `allocate_pages(order, flags)` returns null iff the order is outside
`[0, LastOrder]` or no block of `2^order` pages can be assembled by
splitting (all free lists at orders `order .. LastOrder` are empty); any
out-of-range order leaves the state unchanged, and `free_pages` with an
out-of-range order halts on its assertion (returns `none`). -/
theorem Buddy.claim_C5 (s : Buddy.State) (b : Nat) (order : Int) :
    ((Buddy.allocate_pages s order).1 = none
       ↔ order < 0 ∨ (Buddy.LastOrder : Int) < order
         ∨ ∀ k, order.toNat ≤ k → k ≤ Buddy.LastOrder → Buddy.getO s k = [])
    ∧ ((order < 0 ∨ (Buddy.LastOrder : Int) < order) →
        Buddy.allocate_pages s order = (none, s))
    ∧ (Buddy.free_pages_checked s b order = none
       ↔ order < 0 ∨ (Buddy.LastOrder : Int) < order) := by
  refine ⟨?_, ?_, ?_⟩
  · by_cases hr : order < 0 ∨ (Buddy.LastOrder : Int) < order
    · have : (Buddy.allocate_pages s order).1 = none := by
        unfold Buddy.allocate_pages
        rw [if_pos hr]
      rw [this]
      simp only [true_iff]
      exact Or.imp_right Or.inl hr
    · have ht : order.toNat ≤ Buddy.LastOrder := by
        push_neg at hr
        omega
      have hiff := Buddy.iterative_split_none_iff s order.toNat ht
      have hunf : (Buddy.allocate_pages s order).1 = (Buddy.iterative_split s order.toNat).1 := by
        unfold Buddy.allocate_pages
        rw [if_neg hr]
        rcases hsp : Buddy.iterative_split s order.toNat with ⟨r, s'⟩
        cases r <;> simp [hsp]
      rw [hunf, hiff]
      constructor
      · intro h; exact Or.inr (Or.inr h)
      · intro h
        rcases h with h | h | h
        · exact absurd h (by push_neg at hr; omega)
        · exact absurd h (by push_neg at hr; omega)
        · exact h
  · intro hr
    unfold Buddy.allocate_pages
    rw [if_pos hr]
  · unfold Buddy.free_pages_checked
    by_cases h : 0 ≤ order ∧ order ≤ (Buddy.LastOrder : Int)
    · rw [if_pos h]
      simp only [reduceCtorEq, false_iff]
      push_neg
      omega
    · rw [if_neg h]
      simp only [true_iff]
      push_neg at h
      by_cases h0 : order < 0
      · exact Or.inl h0
      · push_neg at h0
        exact Or.inr (h h0)

/-- Witness for C5: an out-of-range order (17) yields a null allocation with
unchanged state, and halts `free_pages`. -/
theorem Buddy.claim_C5_witness :
    (Buddy.allocate_pages Buddy.initState 17).1 = none
    ∧ Buddy.allocate_pages Buddy.initState 17 = (none, Buddy.initState)
    ∧ Buddy.free_pages_checked Buddy.initState 0 17 = none := by
  have h := Buddy.claim_C5 Buddy.initState 0 17
  exact ⟨h.1.mpr (Or.inr (Or.inl (by norm_num [Buddy.LastOrder]))),
    h.2.1 (Or.inr (by norm_num [Buddy.LastOrder])),
    h.2.2.mpr (Or.inr (by norm_num [Buddy.LastOrder]))⟩

namespace Buddy

theorem insertSorted_mem {b a : Nat} : ∀ {l : List Nat},
    a ∈ insertSorted b l ↔ a = b ∨ a ∈ l := by
  intro l
  induction l with
  | nil => simp [insertSorted]
  | cons x xs ih =>
    simp only [insertSorted]
    split
    · simp only [List.mem_cons, ih]
      tauto
    · simp only [List.mem_cons]

theorem insertSorted_pairwise {b : Nat} : ∀ {l : List Nat},
    l.Pairwise (· < ·) → b ∉ l → (insertSorted b l).Pairwise (· < ·) := by
  intro l
  induction l with
  | nil => intro _ _; simp [insertSorted]
  | cons x xs ih =>
    intro hs hb
    rw [List.pairwise_cons] at hs
    simp only [insertSorted]
    split
    · rename_i hxb
      rw [List.pairwise_cons]
      refine ⟨?_, ih hs.2 (fun hc => hb (List.mem_cons_of_mem x hc))⟩
      intro a ha
      rcases insertSorted_mem.1 ha with rfl | ha
      · exact hxb
      · exact hs.1 a ha
    · rename_i hxb
      push_neg at hxb
      have hbx : b < x := by
        rcases Nat.lt_or_ge b x with h | h
        · exact h
        · exfalso
          have : b = x := Nat.le_antisymm hxb h
          exact hb (this ▸ List.mem_cons_self x xs)
      rw [List.pairwise_cons]
      refine ⟨?_, List.pairwise_cons.2 hs⟩
      intro a ha
      rcases List.mem_cons.1 ha with rfl | ha
      · exact hbx
      · exact Nat.lt_trans hbx (hs.1 a ha)

theorem insertSorted_eq_cons {b : Nat} {l : List Nat} (h : ∀ x ∈ l, b < x) :
    insertSorted b l = b :: l := by
  cases l with
  | nil => rfl
  | cons x xs =>
    simp only [insertSorted]
    rw [if_neg]
    push_neg
    exact Nat.le_of_lt (h x (List.mem_cons_self x xs))

theorem sorted_split {l : List Nat} {p : Nat} (hs : l.Pairwise (· < ·))
    (hp : p ∈ l) :
    ∃ l₁ l₂, l = l₁ ++ p :: l₂ ∧ (∀ x ∈ l₁, x < p) ∧ (∀ x ∈ l₂, p < x) := by
  obtain ⟨l₁, l₂, rfl⟩ := List.append_of_mem hp
  rw [List.pairwise_append] at hs
  refine ⟨l₁, l₂, rfl, ?_, ?_⟩
  · intro x hx
    exact hs.2.2 x hx p (List.mem_cons_self p l₂)
  · intro x hx
    exact (List.pairwise_cons.1 hs.2.1).1 x hx

theorem succAfter_append {p : Nat} : ∀ {l₁ : List Nat} (l₂ : List Nat),
    (∀ x ∈ l₁, x ≠ p) → succAfter p (l₁ ++ p :: l₂) = l₂.head? := by
  intro l₁
  induction l₁ with
  | nil =>
    intro l₂ _
    simp [succAfter]
  | cons x xs ih =>
    intro l₂ h
    have hx : x ≠ p := h x (List.mem_cons_self x xs)
    simp only [List.cons_append, succAfter]
    rw [if_neg hx]
    exact ih l₂ (fun y hy => h y (List.mem_cons_of_mem x hy))

theorem succAfter_mem {p q : Nat} : ∀ {l : List Nat},
    succAfter p l = some q → q ∈ l := by
  intro l
  induction l with
  | nil => intro h; exact absurd h (by simp [succAfter])
  | cons x xs ih =>
    intro h
    simp only [succAfter] at h
    split at h
    · cases xs with
      | nil => exact absurd h (by simp)
      | cons y ys =>
        simp only [List.head?] at h
        cases h
        exact List.mem_cons_of_mem x (List.mem_cons_self q ys)
    · exact List.mem_cons_of_mem x (ih h)

theorem succAfter_not_mem {p : Nat} : ∀ {l : List Nat},
    p ∉ l → succAfter p l = none := by
  intro l
  induction l with
  | nil => intro _; rfl
  | cons x xs ih =>
    intro h
    simp only [succAfter]
    have hxp : ¬ (x = p) := fun he => h (he ▸ List.mem_cons_self x xs)
    rw [if_neg hxp]
    exact ih (fun hc => h (List.mem_cons_of_mem x hc))

theorem nextFree_eq_of_unique {s : State} {p n : Nat} (hn : n ≤ LastOrder)
    (hp : p ∈ getO s n) (hu : ∀ m, m ≤ LastOrder → p ∈ getO s m → m = n) :
    nextFree s p = succAfter p (getO s n) := by
  unfold nextFree
  rcases hf : (List.range (LastOrder + 1)).find? (fun k => (getO s k).contains p)
    with _ | n₀
  · exfalso
    exact List.find?_eq_none.1 hf n (List.mem_range.2 (by omega))
      (List.elem_iff.2 hp)
  · have hc1 : (getO s n₀).contains p = true := by
      have hraw := List.find?_some hf
      exact hraw
    have h1 : p ∈ getO s n₀ := List.elem_iff.1 hc1
    have h2 : n₀ ≤ LastOrder := by
      have := List.mem_of_find?_eq_some hf
      rw [List.mem_range] at this
      omega
    rw [hu n₀ h2 h1]

theorem nextFree_none {s : State} {p : Nat}
    (h : ∀ m, m ≤ LastOrder → p ∉ getO s m) : nextFree s p = none := by
  unfold nextFree
  rcases hf : (List.range (LastOrder + 1)).find? (fun k => (getO s k).contains p)
    with _ | n₀
  · rfl
  · exfalso
    have hc1 : (getO s n₀).contains p = true := by
      have hraw := List.find?_some hf
      exact hraw
    have h1 : p ∈ getO s n₀ := List.elem_iff.1 hc1
    have h2 : n₀ ≤ LastOrder := by
      have := List.mem_of_find?_eq_some hf
      rw [List.mem_range] at this
      omega
    exact h n₀ h2 h1

theorem nextFree_some_found {s : State} {p q : Nat} (h : nextFree s p = some q) :
    ∃ m, m ≤ LastOrder ∧ p ∈ getO s m ∧ succAfter p (getO s m) = some q := by
  unfold nextFree at h
  rcases hf : (List.range (LastOrder + 1)).find? (fun k => (getO s k).contains p)
    with _ | n₀
  · rw [hf] at h
    exact absurd h (by simp)
  · rw [hf] at h
    have hc1 : (getO s n₀).contains p = true := by
      have hraw := List.find?_some hf
      exact hraw
    have h1 : p ∈ getO s n₀ := List.elem_iff.1 hc1
    have h2 : n₀ ≤ LastOrder := by
      have := List.mem_of_find?_eq_some hf
      rw [List.mem_range] at this
      omega
    exact ⟨n₀, h2, h1, h⟩

end Buddy

namespace Buddy

theorem xor_double (a b : Nat) :
    ((2 * a) ^^^ (2 * b) = 2 * (a ^^^ b))
    ∧ ((2 * a + 1) ^^^ (2 * b) = 2 * (a ^^^ b) + 1)
    ∧ ((2 * a) ^^^ (2 * b + 1) = 2 * (a ^^^ b) + 1)
    ∧ ((2 * a + 1) ^^^ (2 * b + 1) = 2 * (a ^^^ b)) := by
  have hbf : ∀ x : Nat, Nat.bit false x = 2 * x := fun x => congrFun Nat.bit_false x
  have hbt : ∀ x : Nat, Nat.bit true x = 2 * x + 1 := fun x => congrFun Nat.bit_true x
  refine ⟨?_, ?_, ?_, ?_⟩
  · rw [← hbf a, ← hbf b, Nat.xor_bit]
    exact hbf (a ^^^ b)
  · rw [← hbt a, ← hbf b, Nat.xor_bit]
    exact hbt (a ^^^ b)
  · rw [← hbf a, ← hbt b, Nat.xor_bit]
    exact hbt (a ^^^ b)
  · rw [← hbt a, ← hbt b, Nat.xor_bit]
    exact hbf (a ^^^ b)

theorem xor_pow_char : ∀ (n c : Nat),
    ((c * 2 ^ (n + 1)) ^^^ 2 ^ n = c * 2 ^ (n + 1) + 2 ^ n)
    ∧ ((c * 2 ^ (n + 1) + 2 ^ n) ^^^ 2 ^ n = c * 2 ^ (n + 1)) := by
  intro n
  induction n with
  | zero =>
    intro c
    constructor
    · have key : (2 * c) ^^^ (2 * 0 + 1) = 2 * (c ^^^ 0) + 1 := (xor_double c 0).2.2.1
      rw [Nat.xor_zero] at key
      have goalEq : c * 2 ^ 1 ^^^ 2 ^ 0 = (2 * c) ^^^ (2 * 0 + 1) := by
        congr 1 <;> ring
      rw [goalEq, key]
      ring
    · have key : (2 * c + 1) ^^^ (2 * 0 + 1) = 2 * (c ^^^ 0) := (xor_double c 0).2.2.2
      rw [Nat.xor_zero] at key
      have goalEq : (c * 2 ^ 1 + 2 ^ 0) ^^^ 2 ^ 0 = (2 * c + 1) ^^^ (2 * 0 + 1) := by
        congr 1 <;> ring
      rw [goalEq, key]
      ring
  | succ n ih =>
    intro c
    constructor
    · have key : (2 * (c * 2 ^ (n + 1))) ^^^ (2 * 2 ^ n)
          = 2 * ((c * 2 ^ (n + 1)) ^^^ 2 ^ n) := (xor_double _ _).1
      rw [(ih c).1] at key
      have goalEq : c * 2 ^ (n + 2) ^^^ 2 ^ (n + 1)
          = (2 * (c * 2 ^ (n + 1))) ^^^ (2 * 2 ^ n) := by
        congr 1 <;> ring
      rw [goalEq, key]
      ring
    · have key : (2 * (c * 2 ^ (n + 1) + 2 ^ n)) ^^^ (2 * 2 ^ n)
          = 2 * ((c * 2 ^ (n + 1) + 2 ^ n) ^^^ 2 ^ n) := (xor_double _ _).1
      rw [(ih c).2] at key
      have goalEq : (c * 2 ^ (n + 2) + 2 ^ (n + 1)) ^^^ 2 ^ (n + 1)
          = (2 * (c * 2 ^ (n + 1) + 2 ^ n)) ^^^ (2 * 2 ^ n) := by
        congr 1 <;> ring
      rw [goalEq, key]
      ring

theorem get_buddy_ne (n p : Nat) : get_buddy n p ≠ p := by
  unfold get_buddy
  intro h
  have h0 : p ^^^ 2 ^ n = p ^^^ 0 := by
    rw [Nat.xor_zero]
    exact h
  have h1 : 2 ^ n = 0 := Nat.xor_right_inj.1 h0
  have h2 : 0 < 2 ^ n := Nat.pos_pow_of_pos n (by norm_num)
  omega

theorem get_buddy_invol (n p : Nat) : get_buddy n (get_buddy n p) = p := by
  unfold get_buddy
  exact Nat.xor_cancel_right (2 ^ n) p

/-- An order-aligned PFN and its buddy: either the PFN is also aligned one
order up and the buddy sits `2^n` above it, or the buddy is aligned one order
up and sits `2^n` below. -/
theorem buddy_cases {n p : Nat} (h : 2 ^ n ∣ p) :
    (get_buddy n p = p + 2 ^ n ∧ 2 ^ (n + 1) ∣ p)
    ∨ (p = get_buddy n p + 2 ^ n ∧ 2 ^ (n + 1) ∣ get_buddy n p) := by
  obtain ⟨c, rfl⟩ := h
  rcases Nat.even_or_odd c with ⟨a, rfl⟩ | ⟨a, rfl⟩
  · left
    have he : 2 ^ n * (a + a) = a * 2 ^ (n + 1) := by ring
    constructor
    · unfold get_buddy
      rw [he, (xor_pow_char n a).1]
    · exact ⟨a, by ring⟩
  · right
    have he : 2 ^ n * (2 * a + 1) = a * 2 ^ (n + 1) + 2 ^ n := by ring
    have hbud : get_buddy n (2 ^ n * (2 * a + 1)) = a * 2 ^ (n + 1) := by
      unfold get_buddy
      rw [he, (xor_pow_char n a).2]
    constructor
    · rw [hbud, he]
    · rw [hbud]
      exact ⟨a, by ring⟩

end Buddy

namespace Buddy

theorem aligned_gap {n p y : Nat} (hp : 2 ^ n ∣ p) (hy : 2 ^ n ∣ y)
    (h : p < y) : p + 2 ^ n ≤ y := by
  obtain ⟨c, rfl⟩ := hp
  obtain ⟨d, rfl⟩ := hy
  have hcd : c < d := by
    by_contra hc
    push_neg at hc
    exact absurd (Nat.mul_le_mul_left (2 ^ n) hc) (by omega)
  calc 2 ^ n * c + 2 ^ n = 2 ^ n * (c + 1) := by ring
    _ ≤ 2 ^ n * d := Nat.mul_le_mul_left (2 ^ n) hcd

/-- On a strictly sorted, order-aligned list containing both `p` and
`p + 2^n`, the successor of `p` is exactly `p + 2^n`. -/
theorem succAfter_adjacent {l : List Nat} {n p : Nat}
    (hs : l.Pairwise (· < ·)) (hal : ∀ x ∈ l, 2 ^ n ∣ x)
    (hp : p ∈ l) (hq : p + 2 ^ n ∈ l) :
    succAfter p l = some (p + 2 ^ n) := by
  obtain ⟨l₁, l₂, rfl, hl₁, hl₂⟩ := sorted_split hs hp
  have hsp : succAfter p (l₁ ++ p :: l₂) = l₂.head? :=
    succAfter_append l₂ (fun x hx => Nat.ne_of_lt (hl₁ x hx))
  rw [hsp]
  have hq2 : p + 2 ^ n ∈ l₂ := by
    have hpos : 0 < 2 ^ n := Nat.pos_pow_of_pos n (by norm_num)
    rcases List.mem_append.1 hq with h | h
    · exact absurd (hl₁ _ h) (by omega)
    · rcases List.mem_cons.1 h with h | h
      · omega
      · exact h
  cases l₂ with
  | nil => exact absurd hq2 (List.not_mem_nil _)
  | cons y ys =>
    have hy : y ≤ p + 2 ^ n := by
      rcases List.mem_cons.1 hq2 with h | h
      · omega
      · have hsy : List.Pairwise (· < ·) (y :: ys) := by
          rw [List.pairwise_append] at hs
          exact (List.pairwise_cons.1 hs.2.1).2
        exact Nat.le_of_lt ((List.pairwise_cons.1 hsy).1 _ h)
    have hy2 : p + 2 ^ n ≤ y := by
      apply aligned_gap
      · exact hal p hp
      · exact hal y (by simp)
      · exact hl₂ y (List.mem_cons_self y ys)
    have : y = p + 2 ^ n := by omega
    rw [this]
    rfl

theorem single_listed {s : State} (hd : DisjFree s) {p n m : Nat}
    (hn : n ≤ LastOrder) (hm : m ≤ LastOrder)
    (hpn : p ∈ getO s n) (hpm : p ∈ getO s m) : n = m := by
  rcases hd n hn m hm p hpn p hpm with ⟨h, _⟩ | h | h
  · exact h
  · have : 0 < 2 ^ n := Nat.pos_pow_of_pos n (by norm_num)
    omega
  · have : 0 < 2 ^ m := Nat.pos_pow_of_pos m (by norm_num)
    omega

end Buddy

namespace Buddy

theorem removeBuddies_append {f : Nat} : ∀ {l₁ : List Nat},
    (∀ x ∈ l₁, x ≠ f) → ∀ (sec : Nat) (l₂ : List Nat),
    removeBuddies f (l₁ ++ f :: sec :: l₂) = l₁ ++ l₂ := by
  intro l₁
  induction l₁ with
  | nil =>
    intro _ sec l₂
    simp only [List.nil_append, removeBuddies, if_pos rfl]
    rfl
  | cons x xs ih =>
    intro h sec l₂
    simp only [List.cons_append, removeBuddies, List.append_eq]
    rw [if_neg (h x (List.mem_cons_self x xs))]
    rw [ih (fun y hy => h y (List.mem_cons_of_mem x hy)) sec l₂]

theorem merge_buddies_lt {s : State} {n b : Nat} (h : b < get_buddy n b) :
    merge_buddies s n b =
      if nextFree s b = some (get_buddy n b) then
        (some b, insert_free_block (remove_buddies s n b) (n + 1) b)
      else (none, s) := by
  show (if nextFree s (if b < get_buddy n b then b else get_buddy n b)
          = some (if b < get_buddy n b then get_buddy n b else b) then
          (some (if b < get_buddy n b then b else get_buddy n b),
            insert_free_block
              (remove_buddies s n (if b < get_buddy n b then b else get_buddy n b))
              (n + 1) (if b < get_buddy n b then b else get_buddy n b))
        else (none, s)) = _
  rw [if_pos h, if_pos h]

theorem merge_buddies_ge {s : State} {n b : Nat} (h : ¬ b < get_buddy n b) :
    merge_buddies s n b =
      if nextFree s (get_buddy n b) = some b then
        (some (get_buddy n b),
          insert_free_block (remove_buddies s n (get_buddy n b)) (n + 1)
            (get_buddy n b))
      else (none, s) := by
  show (if nextFree s (if b < get_buddy n b then b else get_buddy n b)
          = some (if b < get_buddy n b then get_buddy n b else b) then
          (some (if b < get_buddy n b then b else get_buddy n b),
            insert_free_block
              (remove_buddies s n (if b < get_buddy n b then b else get_buddy n b))
              (n + 1) (if b < get_buddy n b then b else get_buddy n b))
        else (none, s)) = _
  rw [if_neg h, if_neg h]

theorem merge_test_iff {s : State} {n b : Nat} (hs : Sorted16 s)
    (ha : Aligned16 s) (hd : DisjFree s) (hn : n < LastOrder)
    (hb : b ∈ getO s n) :
    (merge_buddies s n b).1.isSome ↔ get_buddy n b ∈ getO s n := by
  have hn' : n ≤ LastOrder := Nat.le_of_lt hn
  have hdvd : 2 ^ n ∣ b := ha n hn' b hb
  have hpos : 0 < 2 ^ n := Nat.pos_pow_of_pos n (by norm_num)
  have huniqb : ∀ m, m ≤ LastOrder → b ∈ getO s m → m = n :=
    fun m hm hbm => single_listed hd hm hn' hbm hb
  rcases buddy_cases hdvd with ⟨he, _⟩ | ⟨he, _⟩
  · -- even: buddy above, first = b
    have hlt : b < get_buddy n b := by omega
    rw [merge_buddies_lt hlt]
    constructor
    · intro hres
      by_cases htest : nextFree s b = some (get_buddy n b)
      · rw [nextFree_eq_of_unique hn' hb huniqb] at htest
        exact succAfter_mem htest
      · rw [if_neg htest] at hres
        exact absurd hres (by simp)
    · intro hbud
      rw [if_pos]
      · simp
      · rw [nextFree_eq_of_unique hn' hb huniqb, he]
        exact succAfter_adjacent (hs n hn') (ha n hn') hb (he ▸ hbud)
  · -- odd: buddy below, first = buddy
    have hlt : ¬ b < get_buddy n b := by omega
    rw [merge_buddies_ge hlt]
    constructor
    · intro hres
      by_cases htest : nextFree s (get_buddy n b) = some b
      · obtain ⟨m, hm, hmem, hsa⟩ := nextFree_some_found htest
        have hbm : b ∈ getO s m := succAfter_mem hsa
        rw [huniqb m hm hbm] at hmem
        exact hmem
      · rw [if_neg htest] at hres
        exact absurd hres (by simp)
    · intro hbud
      rw [if_pos]
      · simp
      · have huniq2 : ∀ m, m ≤ LastOrder → get_buddy n b ∈ getO s m → m = n :=
          fun m hm hbm => single_listed hd hm hn' hbm hbud
        rw [nextFree_eq_of_unique hn' hbud huniq2]
        have hadj := succAfter_adjacent (hs n hn') (ha n hn') hbud
          (show get_buddy n b + 2 ^ n ∈ getO s n by rw [← he]; exact hb)
        rw [hadj, ← he]

theorem merge_buddies_fail {s : State} {n b : Nat} (hs : Sorted16 s)
    (ha : Aligned16 s) (hd : DisjFree s) (hn : n < LastOrder)
    (hb : b ∈ getO s n) (hbud : get_buddy n b ∉ getO s n) :
    merge_buddies s n b = (none, s) := by
  have hres : ¬ (merge_buddies s n b).1.isSome :=
    (merge_test_iff hs ha hd hn hb).not.2 hbud
  by_cases hc : b < get_buddy n b
  · rw [merge_buddies_lt hc] at hres ⊢
    by_cases ht : nextFree s b = some (get_buddy n b)
    · rw [if_pos ht] at hres
      exact absurd rfl hres
    · rw [if_neg ht]
  · rw [merge_buddies_ge hc] at hres ⊢
    by_cases ht : nextFree s (get_buddy n b) = some b
    · rw [if_pos ht] at hres
      exact absurd rfl hres
    · rw [if_neg ht]

theorem merge_buddies_some_desc {s : State} {n b : Nat} (hs : Sorted16 s)
    (ha : Aligned16 s) (hd : DisjFree s) (hn : n < LastOrder)
    (hb : b ∈ getO s n) (hbud : get_buddy n b ∈ getO s n) :
    ∃ first l₁ l₂,
      first ∈ getO s n ∧ first + 2 ^ n ∈ getO s n
      ∧ (b = first ∨ b = first + 2 ^ n)
      ∧ (get_buddy n b = first ∨ get_buddy n b = first + 2 ^ n)
      ∧ b ≠ get_buddy n b
      ∧ 2 ^ (n + 1) ∣ first
      ∧ getO s n = l₁ ++ first :: (first + 2 ^ n) :: l₂
      ∧ (∀ x ∈ l₁, x < first) ∧ (∀ x ∈ l₂, first + 2 ^ n < x)
      ∧ merge_buddies s n b
          = (some first, insert_free_block (setO s n (l₁ ++ l₂)) (n + 1) first) := by
  have hn' : n ≤ LastOrder := Nat.le_of_lt hn
  have hdvd : 2 ^ n ∣ b := ha n hn' b hb
  have hpos : 0 < 2 ^ n := Nat.pos_pow_of_pos n (by norm_num)
  have hne : b ≠ get_buddy n b := (get_buddy_ne n b).symm
  have hsn := hs n hn'
  rcases buddy_cases hdvd with ⟨he, hal2⟩ | ⟨he, hal2⟩
  · -- even: first = b, second = b + 2^n
    have hlt : b < get_buddy n b := by omega
    have hsec : b + 2 ^ n ∈ getO s n := he ▸ hbud
    obtain ⟨l₁, l₂, hsplit, hl₁, hl₂⟩ := sorted_split hsn hb
    have hsa2 : succAfter b (getO s n) = some (b + 2 ^ n) :=
      succAfter_adjacent hsn (ha n hn') hb hsec
    have hsa : succAfter b (getO s n) = l₂.head? := by
      rw [hsplit]
      exact succAfter_append l₂ (fun x hx => Nat.ne_of_lt (hl₁ x hx))
    obtain ⟨l₂', rfl⟩ : ∃ l₂', l₂ = (b + 2 ^ n) :: l₂' := by
      rw [hsa] at hsa2
      cases l₂ with
      | nil => exact absurd hsa2 (by simp)
      | cons y ys =>
        simp only [List.head?, Option.some.injEq] at hsa2
        exact ⟨ys, by rw [hsa2]⟩
    have hl₂' : ∀ x ∈ l₂', b + 2 ^ n < x := by
      have hps := hsn
      rw [hsplit, List.pairwise_append] at hps
      have := (List.pairwise_cons.1 (List.pairwise_cons.1 hps.2.1).2).1
      exact this
    refine ⟨b, l₁, l₂', hb, hsec, Or.inl rfl, Or.inr he, hne, hal2,
      hsplit, hl₁, hl₂', ?_⟩
    rw [merge_buddies_lt hlt]
    rw [if_pos (by rw [nextFree_eq_of_unique hn' hb
      (fun m hm hbm => single_listed hd hm hn' hbm hb), hsa2, he])]
    have hrm : remove_buddies s n b = setO s n (l₁ ++ l₂') := by
      unfold remove_buddies
      rw [hsplit, removeBuddies_append (fun x hx => Nat.ne_of_lt (hl₁ x hx))]
    rw [hrm]
  · -- odd: first = get_buddy n b, second = b
    have hlt : ¬ b < get_buddy n b := by omega
    have hsec : get_buddy n b + 2 ^ n ∈ getO s n := by rw [← he]; exact hb
    obtain ⟨l₁, l₂, hsplit, hl₁, hl₂⟩ := sorted_split hsn hbud
    have hsa2 : succAfter (get_buddy n b) (getO s n)
        = some (get_buddy n b + 2 ^ n) :=
      succAfter_adjacent hsn (ha n hn') hbud hsec
    have hsa : succAfter (get_buddy n b) (getO s n) = l₂.head? := by
      rw [hsplit]
      exact succAfter_append l₂ (fun x hx => Nat.ne_of_lt (hl₁ x hx))
    obtain ⟨l₂', rfl⟩ : ∃ l₂', l₂ = (get_buddy n b + 2 ^ n) :: l₂' := by
      rw [hsa] at hsa2
      cases l₂ with
      | nil => exact absurd hsa2 (by simp)
      | cons y ys =>
        simp only [List.head?, Option.some.injEq] at hsa2
        exact ⟨ys, by rw [hsa2]⟩
    have hl₂' : ∀ x ∈ l₂', get_buddy n b + 2 ^ n < x := by
      have hps := hsn
      rw [hsplit, List.pairwise_append] at hps
      exact (List.pairwise_cons.1 (List.pairwise_cons.1 hps.2.1).2).1
    refine ⟨get_buddy n b, l₁, l₂', hbud, hsec, Or.inr he, Or.inl rfl, hne, hal2,
      hsplit, hl₁, hl₂', ?_⟩
    rw [merge_buddies_ge hlt]
    rw [if_pos (by rw [nextFree_eq_of_unique hn' hbud
      (fun m hm hbm => single_listed hd hm hn' hbm hbud), hsa2, ← he])]
    have hrm : remove_buddies s n (get_buddy n b) = setO s n (l₁ ++ l₂') := by
      unfold remove_buddies
      rw [hsplit, removeBuddies_append (fun x hx => Nat.ne_of_lt (hl₁ x hx))]
    rw [hrm]

end Buddy

namespace Buddy

/-- P3 with one possible exception: the (just inserted or just merged)
candidate block `c` at order `k` may have a free buddy; every other buddy
pair is split.  This is the loop invariant of `iterative_merge`. -/
def NoFreeBuddiesExc (s : State) (k c : Nat) : Prop :=
  ∀ n, n < LastOrder → ∀ p ∈ getO s n, get_buddy n p ∈ getO s n →
    n = k ∧ (p = c ∨ get_buddy n p = c)

theorem state_ext {u v : State} (hl : u.length = v.length)
    (h : ∀ n, getO u n = getO v n) : u = v := by
  apply List.ext_getElem hl
  intro n h₁ h₂
  have := h n
  unfold getO at this
  rw [List.getD_eq_getElem u [] h₁, List.getD_eq_getElem v [] h₂] at this
  exact this

theorem mergeUp_none : ∀ (fuel k : Nat) (s : State), mergeUp fuel k none s = s := by
  intro fuel k s
  cases fuel <;> rfl

theorem merge_step_advance {s : State} {k c : Nat}
    (hlen : s.length = LastOrder + 1)
    (hs : Sorted16 s) (ha : Aligned16 s) (hd : DisjFree s)
    (hx : NoFreeBuddiesExc s k c)
    (hk : k < LastOrder) (hc : c ∈ getO s k)
    (hbud : get_buddy k c ∈ getO s k) :
    ∃ first s₂,
      merge_buddies s k c = (some first, s₂)
      ∧ s₂.length = LastOrder + 1
      ∧ Sorted16 s₂ ∧ Aligned16 s₂ ∧ DisjFree s₂
      ∧ NoFreeBuddiesExc s₂ (k + 1) first
      ∧ first ∈ getO s₂ (k + 1)
      ∧ (∀ a, inFree s₂ a ↔ inFree s a) := by
  have hk' : k ≤ LastOrder := Nat.le_of_lt hk
  have hk1 : k + 1 ≤ LastOrder := hk
  have hposk : 0 < 2 ^ k := Nat.pos_pow_of_pos k (by norm_num)
  have hpow : (2 : Nat) ^ (k + 1) = 2 ^ k + 2 ^ k := by rw [pow_succ]; ring
  obtain ⟨first, l₁, l₂, hfm, hsm, hcfs, hbfs, hne, hal2, hsplit, hl₁, hl₂, hmeq⟩ :=
    merge_buddies_some_desc hs ha hd hk hc hbud
  set sec := first + 2 ^ k with hsecdef
  set s₂ := insert_free_block (setO s k (l₁ ++ l₂)) (k + 1) first with hs₂def
  have hfs : first < sec := by omega
  -- reads of the new state
  have hlen1 : (setO s k (l₁ ++ l₂)).length = LastOrder + 1 := by
    rw [length_setO, hlen]
  have hr1 : ∀ j, j ≠ k → getO (setO s k (l₁ ++ l₂)) j = getO s j :=
    fun j hj => getO_setO_ne _ hj
  have hrk : getO (setO s k (l₁ ++ l₂)) k = l₁ ++ l₂ :=
    getO_setO_self _ (by omega)
  have hlen2 : s₂.length = LastOrder + 1 := by
    rw [hs₂def]
    unfold insert_free_block
    rw [length_setO, hlen1]
  have hr2k1 : getO s₂ (k + 1) = insertSorted first (getO s (k + 1)) := by
    rw [hs₂def]
    unfold insert_free_block
    rw [getO_setO_self _ (by omega), hr1 (k + 1) (by omega)]
  have hr2k : getO s₂ k = l₁ ++ l₂ := by
    rw [hs₂def]
    unfold insert_free_block
    rw [getO_setO_ne _ (by omega), hrk]
  have hr2 : ∀ j, j ≠ k → j ≠ k + 1 → getO s₂ j = getO s j := by
    intro j hj hj1
    rw [hs₂def]
    unfold insert_free_block
    rw [getO_setO_ne _ hj1, hr1 j hj]
  -- sorted facts about the split list
  have hsk := hs k hk'
  rw [hsplit] at hsk
  rw [List.pairwise_append] at hsk
  have hsk2 := List.pairwise_cons.1 hsk.2.1
  have hsk3 := List.pairwise_cons.1 hsk2.2
  have hl₂gt : ∀ x ∈ l₂, sec < x := hsk3.1
  -- membership in the contracted order-k list
  have hmem_rest : ∀ x, x ∈ l₁ ++ l₂ ↔ x ∈ getO s k ∧ x ≠ first ∧ x ≠ sec := by
    intro x
    constructor
    · intro hxm
      rcases List.mem_append.1 hxm with hx | hx
      · have := hl₁ x hx
        exact ⟨by rw [hsplit]; exact List.mem_append_left _ hx, by omega, by omega⟩
      · have := hl₂gt x hx
        have hxin : x ∈ getO s k := by
          rw [hsplit]
          exact List.mem_append_right _
            (List.mem_cons_of_mem _ (List.mem_cons_of_mem _ hx))
        exact ⟨hxin, by omega, by omega⟩
    · rintro ⟨hxm, hx1, hx2⟩
      rw [hsplit] at hxm
      rcases List.mem_append.1 hxm with hx | hx
      · exact List.mem_append_left _ hx
      · rcases List.mem_cons.1 hx with rfl | hx
        · exact absurd rfl hx1
        · rcases List.mem_cons.1 hx with rfl | hx
          · exact absurd rfl hx2
          · exact List.mem_append_right _ hx
  -- the coarse membership characterisation of the new state
  have factA : ∀ j x, j ≤ LastOrder → x ∈ getO s₂ j →
      (x ∈ getO s j ∧ (j = k → x ≠ first ∧ x ≠ sec)) ∨ (j = k + 1 ∧ x = first) := by
    intro j x hj hx
    by_cases hjk : j = k
    · subst hjk
      rw [hr2k] at hx
      have := (hmem_rest x).1 hx
      exact Or.inl ⟨this.1, fun _ => this.2⟩
    · by_cases hjk1 : j = k + 1
      · subst hjk1
        rw [hr2k1] at hx
        rcases insertSorted_mem.1 hx with rfl | hx
        · exact Or.inr ⟨rfl, rfl⟩
        · exact Or.inl ⟨hx, fun hcon => absurd hcon (by omega)⟩
      · rw [hr2 j hjk hjk1] at hx
        exact Or.inl ⟨hx, fun hcon => absurd hcon hjk⟩
  have hfirst_not_k1 : first ∉ getO s (k + 1) := by
    intro hcon
    have := single_listed hd hk1 hk' hcon hfm
    omega
  refine ⟨first, s₂, hmeq, hlen2, ?_, ?_, ?_, ?_, ?_, ?_⟩
  · -- Sorted16
    intro j hj
    by_cases hjk : j = k
    · subst hjk
      rw [hr2k]
      have hsub : (l₁ ++ l₂).Sublist (getO s j) := by
        rw [hsplit]
        apply List.Sublist.append_left
        exact List.Sublist.trans (List.sublist_cons_self _ _)
          (List.sublist_cons_self _ _)
      exact List.Pairwise.sublist hsub (hs j hj)
    · by_cases hjk1 : j = k + 1
      · subst hjk1
        rw [hr2k1]
        exact insertSorted_pairwise (hs _ hj) hfirst_not_k1
      · rw [hr2 j hjk hjk1]
        exact hs j hj
  · -- Aligned16
    intro j hj x hx
    rcases factA j x hj hx with ⟨hxm, _⟩ | ⟨rfl, rfl⟩
    · exact ha j hj x hxm
    · exact hal2
  · -- DisjFree
    intro m hm m' hm' p hp q hq
    have hdis_first : ∀ j x, j ≤ LastOrder → x ∈ getO s j → (j = k → x ≠ first ∧ x ≠ sec) →
        blockDisj x j first (k + 1) := by
      intro j x hj hxm hcave
      have h1 : (j = k ∧ x = first) ∨ blockDisj x j first k := by
        rcases hd j hj k hk' x hxm first hfm with h | h
        · exact Or.inl h
        · exact Or.inr h
      have h2 : (j = k ∧ x = sec) ∨ blockDisj x j sec k := by
        rcases hd j hj k hk' x hxm sec hsm with h | h
        · exact Or.inl h
        · exact Or.inr h
      have hb1 : blockDisj x j first k := by
        rcases h1 with ⟨hjk, hxf⟩ | h
        · exact absurd hxf (hcave hjk).1
        · exact h
      have hb2 : blockDisj x j sec k := by
        rcases h2 with ⟨hjk, hxf⟩ | h
        · exact absurd hxf (hcave hjk).2
        · exact h
      unfold blockDisj at hb1 hb2 ⊢
      have hposj : 0 < 2 ^ j := Nat.pos_pow_of_pos j (by norm_num)
      omega
    rcases factA m p hm hp with ⟨hpm, hpcave⟩ | ⟨hmk1, hpf⟩
    · rcases factA m' q hm' hq with ⟨hqm, hqcave⟩ | ⟨hm'k1, hqf⟩
      · exact hd m hm m' hm' p hpm q hqm
      · subst hm'k1; subst hqf
        exact Or.inr (hdis_first m p hm hpm hpcave)
    · rcases factA m' q hm' hq with ⟨hqm, hqcave⟩ | ⟨hm'k1, hqf⟩
      · subst hmk1; subst hpf
        have := hdis_first m' q hm' hqm hqcave
        unfold blockDisj at this ⊢
        omega
      · subst hmk1; subst hm'k1; subst hpf; subst hqf
        exact Or.inl ⟨rfl, rfl⟩
  · -- NoFreeBuddiesExc at (k+1, first)
    intro n hn p hp hbp
    rcases factA n p (Nat.le_of_lt hn) hp with ⟨hpm, hpcave⟩ | ⟨hnk1, hpf⟩
    · rcases factA n (get_buddy n p) (Nat.le_of_lt hn) hbp with ⟨hbm, hbcave⟩ | ⟨hnk1, hbf⟩
      · -- both survive: the old exception applies, but both halves are gone
        obtain ⟨hnk, hpc⟩ := hx n hn p hpm hbm
        exfalso
        have hcfs' : c = first ∨ c = sec := hcfs
        rcases hpc with rfl | hbc
        · rcases hcfs' with rfl | rfl
          · exact absurd rfl (hpcave hnk).1
          · exact absurd rfl (hpcave hnk).2
        · rcases hcfs' with hcf | hcs
          · exact absurd (hbc.trans hcf) (hbcave hnk).1
          · exact absurd (hbc.trans hcs) (hbcave hnk).2
      · exact ⟨hnk1, Or.inr hbf⟩
    · exact ⟨hnk1, Or.inl hpf⟩
  · -- the merged block is listed at k+1
    rw [hr2k1]
    exact insertSorted_mem.2 (Or.inl rfl)
  · -- footprint preserved
    intro a
    constructor
    · rintro ⟨m, hm, p, hp, hip⟩
      rcases factA m p hm hp with ⟨hpm, _⟩ | ⟨hmk1, hpf⟩
      · exact ⟨m, hm, p, hpm, hip⟩
      · rw [hmk1, hpf] at hip
        unfold inBlock at hip
        by_cases hlow : a < first + 2 ^ k
        · exact ⟨k, hk', first, hfm, ⟨hip.1, hlow⟩⟩
        · refine ⟨k, hk', sec, hsm, ⟨by omega, by omega⟩⟩
    · rintro ⟨m, hm, p, hp, hip⟩
      by_cases hmerged : m = k ∧ (p = first ∨ p = sec)
      · obtain ⟨hmke, hpor⟩ := hmerged
        rw [hmke] at hip
        refine ⟨k + 1, hk1, first, ?_, ?_⟩
        · rw [hr2k1]
          exact insertSorted_mem.2 (Or.inl rfl)
        · unfold inBlock at hip ⊢
          rcases hpor with rfl | rfl
          · omega
          · omega
      · push_neg at hmerged
        by_cases hmk : m = k
        · have hps : p ≠ first ∧ p ≠ sec := hmerged hmk
          rw [hmk] at hp hip
          refine ⟨k, hk', p, ?_, hip⟩
          rw [hr2k]
          exact (hmem_rest p).2 ⟨hp, hps.1, hps.2⟩
        · by_cases hmk1 : m = k + 1
          · subst hmk1
            refine ⟨k + 1, hk1, p, ?_, hip⟩
            rw [hr2k1]
            exact insertSorted_mem.2 (Or.inr hp)
          · refine ⟨m, hm, p, ?_, hip⟩
            rw [hr2 m hmk hmk1]
            exact hp

end Buddy

namespace Buddy

theorem mergeUp_step (fuel k c : Nat) (s : State) (hk : k < LastOrder) :
    mergeUp (fuel + 1) k (some c) s
      = mergeUp fuel (k + 1) (merge_buddies s k c).1 (merge_buddies s k c).2 := by
  show (match some c with
        | none => s
        | some b =>
          if k < LastOrder then
            let r := merge_buddies s k b
            mergeUp fuel (k + 1) r.1 r.2
          else s) = _
  simp only [if_pos hk]

theorem mergeUp_stop (fuel c : Nat) (s : State) :
    mergeUp fuel LastOrder (some c) s = s := by
  cases fuel with
  | zero => rfl
  | succ fuel =>
    show (match some c with
          | none => s
          | some b =>
            if LastOrder < LastOrder then
              let r := merge_buddies s LastOrder b
              mergeUp fuel (LastOrder + 1) r.1 r.2
            else s) = _
    simp

theorem mergeUp_inv : ∀ (fuel k c : Nat) (s : State),
    LastOrder - k ≤ fuel → k ≤ LastOrder →
    s.length = LastOrder + 1 → Sorted16 s → Aligned16 s → DisjFree s →
    NoFreeBuddiesExc s k c → c ∈ getO s k →
    Inv (mergeUp fuel k (some c) s)
    ∧ (∀ a, inFree (mergeUp fuel k (some c) s) a ↔ inFree s a) := by
  intro fuel
  induction fuel with
  | zero =>
    intro k c s hfu hk hlen hs ha hd hx hc
    have hke : k = LastOrder := by omega
    subst hke
    show Inv s ∧ _
    refine ⟨⟨hlen, hs, ha, hd, ?_⟩, fun a => Iff.rfl⟩
    intro n hn p hp hbp
    have := hx n hn p hp hbp
    omega
  | succ fuel ih =>
    intro k c s hfu hk hlen hs ha hd hx hc
    rcases Nat.eq_or_lt_of_le hk with hke | hklt
    · subst hke
      rw [mergeUp_stop]
      refine ⟨⟨hlen, hs, ha, hd, ?_⟩, fun a => Iff.rfl⟩
      intro n hn p hp hbp
      have := hx n hn p hp hbp
      omega
    · have hklt' : k < LastOrder := hklt
      by_cases hbud : get_buddy k c ∈ getO s k
      · obtain ⟨first, s₂, hmeq, hlen2, hs2, ha2, hd2, hx2, hfm2, hfp2⟩ :=
          merge_step_advance hlen hs ha hd hx hklt' hc hbud
        rw [mergeUp_step fuel k c s hklt', hmeq]
        have := ih (k + 1) first s₂ (by omega) (by omega) hlen2 hs2 ha2 hd2 hx2 hfm2
        refine ⟨this.1, fun a => Iff.trans (this.2 a) (hfp2 a)⟩
      · rw [mergeUp_step fuel k c s hklt',
          merge_buddies_fail hs ha hd hklt' hc hbud, mergeUp_none]
        refine ⟨⟨hlen, hs, ha, hd, ?_⟩, fun a => Iff.rfl⟩
        intro n hn p hp hbp
        obtain ⟨hnk, hpc⟩ := hx n hn p hp hbp
        exfalso
        rcases hpc with rfl | hbc
        · rw [hnk] at hbp
          exact hbud hbp
        · rw [hnk] at hp hbc
          have hcb : get_buddy k c = p := by rw [← hbc, get_buddy_invol]
          apply hbud
          rw [hcb]
          exact hp

end Buddy

namespace Buddy

/-- Freeing an allocated, order-aligned block that is disjoint from every
free block preserves the global invariant and grows the free footprint by
exactly that block (merging only regroups it). -/
theorem free_pages_inv {s : State} {b n : Nat} (hI : Inv s) (hn : n ≤ LastOrder)
    (hal : 2 ^ n ∣ b)
    (hdisj : ∀ m, m ≤ LastOrder → ∀ q ∈ getO s m, blockDisj b n q m) :
    Inv (free_pages s b n)
    ∧ (∀ a, inFree (free_pages s b n) a ↔ inFree s a ∨ inBlock b n a) := by
  obtain ⟨hlen, hs, ha, hd, hnb⟩ := hI
  have hposn : 0 < 2 ^ n := Nat.pos_pow_of_pos n (by norm_num)
  have hnotmem : ∀ m, m ≤ LastOrder → b ∉ getO s m := by
    intro m hm hc
    have := hdisj m hm b hc
    unfold blockDisj at this
    have : 0 < 2 ^ m := Nat.pos_pow_of_pos m (by norm_num)
    omega
  set s₁ := insert_free_block s n b with hs₁def
  have hlen1 : s₁.length = LastOrder + 1 := by
    rw [hs₁def]; unfold insert_free_block; rw [length_setO, hlen]
  have hr1n : getO s₁ n = insertSorted b (getO s n) := by
    rw [hs₁def]; unfold insert_free_block
    exact getO_setO_self _ (by omega)
  have hr1 : ∀ j, j ≠ n → getO s₁ j = getO s j := by
    intro j hj
    rw [hs₁def]; unfold insert_free_block
    exact getO_setO_ne _ hj
  have hmem1 : ∀ j x, j ≤ LastOrder → (x ∈ getO s₁ j ↔ (j = n ∧ x = b) ∨ x ∈ getO s j) := by
    intro j x hj
    by_cases hjn : j = n
    · subst hjn
      rw [hr1n]
      rw [insertSorted_mem]
      constructor
      · rintro (rfl | h)
        · exact Or.inl ⟨rfl, rfl⟩
        · exact Or.inr h
      · rintro (⟨_, rfl⟩ | h)
        · exact Or.inl rfl
        · exact Or.inr h
    · rw [hr1 j hjn]
      constructor
      · exact Or.inr
      · rintro (⟨rfl, _⟩ | h)
        · exact absurd rfl hjn
        · exact h
  have hs1 : Sorted16 s₁ := by
    intro j hj
    by_cases hjn : j = n
    · subst hjn
      rw [hr1n]
      exact insertSorted_pairwise (hs j hj) (hnotmem j hj)
    · rw [hr1 j hjn]
      exact hs j hj
  have ha1 : Aligned16 s₁ := by
    intro j hj x hx
    rcases (hmem1 j x hj).1 hx with ⟨rfl, rfl⟩ | hx
    · exact hal
    · exact ha j hj x hx
  have hd1 : DisjFree s₁ := by
    intro m hm m' hm' p hp q hq
    rcases (hmem1 m p hm).1 hp with ⟨rfl, rfl⟩ | hp'
    · rcases (hmem1 m' q hm').1 hq with ⟨rfl, rfl⟩ | hq'
      · exact Or.inl ⟨rfl, rfl⟩
      · exact Or.inr (hdisj m' hm' q hq')
    · rcases (hmem1 m' q hm').1 hq with ⟨rfl, rfl⟩ | hq'
      · have := hdisj m hm p hp'
        unfold blockDisj at this ⊢
        omega
      · exact hd m hm m' hm' p hp' q hq'
  have hx1 : NoFreeBuddiesExc s₁ n b := by
    intro j hj p hp hbp
    rcases (hmem1 j p (Nat.le_of_lt hj)).1 hp with ⟨rfl, rfl⟩ | hp'
    · exact ⟨rfl, Or.inl rfl⟩
    · rcases (hmem1 j (get_buddy j p) (Nat.le_of_lt hj)).1 hbp with ⟨rfl, hbb⟩ | hbp'
      · exact ⟨rfl, Or.inr hbb⟩
      · exact absurd hbp' (hnb j hj p hp')
  have hb1 : b ∈ getO s₁ n := (hmem1 n b hn).2 (Or.inl ⟨rfl, rfl⟩)
  have hfp1 : ∀ a, inFree s₁ a ↔ inFree s a ∨ inBlock b n a := by
    intro a
    constructor
    · rintro ⟨m, hm, p, hp, hip⟩
      rcases (hmem1 m p hm).1 hp with ⟨rfl, rfl⟩ | hp'
      · exact Or.inr hip
      · exact Or.inl ⟨m, hm, p, hp', hip⟩
    · rintro (⟨m, hm, p, hp, hip⟩ | hib)
      · exact ⟨m, hm, p, (hmem1 m p hm).2 (Or.inr hp), hip⟩
      · exact ⟨n, hn, b, hb1, hib⟩
  have hmain := mergeUp_inv LastOrder n b s₁ (by omega) hn hlen1 hs1 ha1 hd1 hx1 hb1
  have hfe : free_pages s b n = mergeUp LastOrder n (some b) s₁ := rfl
  rw [hfe]
  exact ⟨hmain.1, fun a => Iff.trans (hmain.2 a) (hfp1 a)⟩

end Buddy

/-- C3: during `free_pages`, for every state satisfying the global
invariants (sorted, aligned, disjoint free lists) and every order
`n < LastOrder`, the merge of a listed block with its buddy is performed if
and only if the buddy block is also free at order `n`, and this is decided
entirely by the single pointer test `first.next_free == &second` with
`first` the lower-PFN buddy; at `order = LastOrder` no merge is ever
attempted. -/
theorem Buddy.claim_C3 (s : Buddy.State) (n b : Nat) (hs : Buddy.Sorted16 s)
    (ha : Buddy.Aligned16 s) (hd : Buddy.DisjFree s) (hn : n < Buddy.LastOrder)
    (hb : b ∈ Buddy.getO s n) :
    ((Buddy.merge_buddies s n b).1.isSome ↔ Buddy.get_buddy n b ∈ Buddy.getO s n)
    ∧ ((Buddy.merge_buddies s n b).1.isSome
        ↔ Buddy.nextFree s (if b < Buddy.get_buddy n b then b else Buddy.get_buddy n b)
            = some (if b < Buddy.get_buddy n b then Buddy.get_buddy n b else b))
    ∧ (∀ (s' : Buddy.State) (c : Option Nat),
        Buddy.iterative_merge s' Buddy.LastOrder c = s') := by
  refine ⟨Buddy.merge_test_iff hs ha hd hn hb, ?_, ?_⟩
  · by_cases hc : b < Buddy.get_buddy n b
    · rw [Buddy.merge_buddies_lt hc, if_pos hc, if_pos hc]
      by_cases ht : Buddy.nextFree s b = some (Buddy.get_buddy n b)
      · rw [if_pos ht]
        simp [ht]
      · rw [if_neg ht]
        simp [ht]
    · rw [Buddy.merge_buddies_ge hc, if_neg hc, if_neg hc]
      by_cases ht : Buddy.nextFree s (Buddy.get_buddy n b) = some b
      · rw [if_pos ht]
        simp [ht]
      · rw [if_neg ht]
        simp [ht]
  · intro s' c
    cases c with
    | none => exact Buddy.mergeUp_none Buddy.LastOrder Buddy.LastOrder s'
    | some c => exact Buddy.mergeUp_stop Buddy.LastOrder c s'

/-- Witness for C3: in the state whose order-0 list is `[0, 1]`, the merge
test for block 0 fires exactly because its buddy 1 is listed. -/
theorem Buddy.claim_C3_witness :
    ((Buddy.merge_buddies (Buddy.setO Buddy.initState 0 [0, 1]) 0 0).1.isSome
      ↔ Buddy.get_buddy 0 0 ∈ Buddy.getO (Buddy.setO Buddy.initState 0 [0, 1]) 0)
    ∧ Buddy.get_buddy 0 0 ∈ Buddy.getO (Buddy.setO Buddy.initState 0 [0, 1]) 0 :=
  ⟨(Buddy.claim_C3 (Buddy.setO Buddy.initState 0 [0, 1]) 0 0
      (by unfold Buddy.Sorted16; decide)
      (by unfold Buddy.Aligned16; decide)
      (by unfold Buddy.DisjFree Buddy.blockDisj; decide)
      (by decide) (by decide)).1, by decide⟩

namespace Buddy

theorem split_block_reads {s : State} {o b : Nat} (hlen : s.length = LastOrder + 1)
    (ho : o ≤ LastOrder) (ho1 : 1 ≤ o) (hso : getO s o = b :: rest) :
    getO (split_block s o b) (o - 1)
        = insertBuddies b (b + 2 ^ (o - 1)) (getO s (o - 1))
    ∧ getO (split_block s o b) o = rest
    ∧ (∀ k, k ≠ o → k ≠ o - 1 → getO (split_block s o b) k = getO s k)
    ∧ (split_block s o b).length = LastOrder + 1 := by
  have hrm : remove_free_block s o b = setO s o rest := by
    unfold remove_free_block
    rw [hso]
    unfold removeFirst
    rw [if_pos rfl]
  have hlen1 : (setO s o rest).length = LastOrder + 1 := by rw [length_setO, hlen]
  have hsp : split_block s o b
      = setO (setO s o rest) (o - 1)
          (insertBuddies b (b + 2 ^ (o - 1)) (getO (setO s o rest) (o - 1))) := by
    unfold split_block insert_buddies
    rw [hrm]
  have hne : o - 1 ≠ o := by omega
  refine ⟨?_, ?_, ?_, ?_⟩
  · rw [hsp, getO_setO_self _ (by omega), getO_setO_ne _ hne]
  · rw [hsp, getO_setO_ne _ hne.symm, getO_setO_self _ (by omega)]
  · intro k hk hk1
    rw [hsp, getO_setO_ne _ hk1, getO_setO_ne _ hk]
  · rw [hsp, length_setO, hlen1]

theorem splitDown_desc : ∀ (d t o : Nat) (s : State) (b : Nat) (rest : List Nat)
    (fuel : Nat),
    o = t + d → 1 ≤ d → o ≤ LastOrder → s.length = LastOrder + 1 →
    getO s o = b :: rest → (∀ k, t ≤ k → k < o → getO s k = []) →
    d ≤ fuel →
    (getO (splitDown t fuel o s) t = [b, b + 2 ^ t]
     ∧ (∀ k, t < k → k < o → getO (splitDown t fuel o s) k = [b + 2 ^ k])
     ∧ getO (splitDown t fuel o s) o = rest
     ∧ (∀ k, k < t ∨ o < k → getO (splitDown t fuel o s) k = getO s k)
     ∧ (splitDown t fuel o s).length = LastOrder + 1) := by
  intro d
  induction d with
  | zero => intro t o s b rest fuel _ h1 _ _ _ _ _; omega
  | succ d ih =>
    intro t o s b rest fuel heq _ ho hlen hso hemp hfu
    obtain ⟨f, rfl⟩ : ∃ f, fuel = f + 1 := ⟨fuel - 1, by omega⟩
    have hto : t < o := by omega
    have hstep : splitDown t (f + 1) o s = splitDown t f (o - 1) (split_block s o b) := by
      show (if t < o then
              match (getO s o).head? with
              | some b => splitDown t f (o - 1) (split_block s o b)
              | none => s
            else s) = _
      rw [if_pos hto, hso]
      rfl
    obtain ⟨hrA, hrB, hrC, hrD⟩ := split_block_reads hlen ho (by omega) hso
    rw [hstep]
    rcases Nat.eq_or_lt_of_le (show 1 ≤ d + 1 by omega) with hd1 | hd2
    · -- d + 1 = 1 : single split, then the loop stops at t = o - 1
      have hdz : d = 0 := by omega
      subst hdz
      have hot : o - 1 = t := by omega
      have hempty : getO s (o - 1) = [] := by
        rw [hot]
        exact hemp t (Nat.le_refl t) hto
      have hstop : splitDown t f (o - 1) (split_block s o b) = split_block s o b := by
        apply splitDown_stop
        omega
      rw [hstop]
      have hbt : getO (split_block s o b) t = [b, b + 2 ^ t] := by
        rw [← hot, hrA, hempty]
        rfl
      refine ⟨hbt, ?_, hrB, ?_, hrD⟩
      · intro k hk1 hk2
        omega
      · intro k hk
        apply hrC <;> omega
    · -- d + 1 ≥ 2 : recurse at o - 1
      have ho1 : o - 1 = t + d := by omega
      have hso2 : getO (split_block s o b) (o - 1) = b :: [b + 2 ^ (o - 1)] := by
        rw [hrA, hemp (o - 1) (by omega) (by omega)]
        rfl
      have hemp2 : ∀ k, t ≤ k → k < o - 1 → getO (split_block s o b) k = [] := by
        intro k hk1 hk2
        rw [hrC k (by omega) (by omega)]
        exact hemp k hk1 (by omega)
      obtain ⟨hA, hB, hC, hD, hE⟩ := ih t (o - 1) (split_block s o b) b
        [b + 2 ^ (o - 1)] f ho1 (by omega) (by omega) hrD hso2 hemp2 (by omega)
      refine ⟨hA, ?_, ?_, ?_, hE⟩
      · intro k hk1 hk2
        rcases Nat.lt_or_ge k (o - 1) with hk3 | hk3
        · exact hB k hk1 hk3
        · have hke : k = o - 1 := by omega
          rw [hke, hC]
      · have := hD o (Or.inr (by omega))
        rw [this, hrB]
      · intro k hk
        rcases hk with hk | hk
        · rw [hD k (Or.inl hk)]
          exact hrC k (by omega) (by omega)
        · rw [hD k (Or.inr (by omega))]
          exact hrC k (by omega) (by omega)

end Buddy

namespace Buddy

theorem allocate_desc {s : State} {o : Int} {p : Nat} {s₁ : State}
    (hlen : s.length = LastOrder + 1)
    (hall : allocate_pages s o = (some p, s₁)) :
    0 ≤ o ∧ o ≤ (LastOrder : Int) ∧
    ((∃ rest, getO s o.toNat = p :: rest ∧ s₁ = setO s o.toNat rest)
     ∨ (∃ m rest, o.toNat < m ∧ m ≤ LastOrder
        ∧ getO s m = p :: rest
        ∧ (∀ k, o.toNat ≤ k → k < m → getO s k = [])
        ∧ getO s₁ o.toNat = [p + 2 ^ o.toNat]
        ∧ (∀ k, o.toNat < k → k < m → getO s₁ k = [p + 2 ^ k])
        ∧ getO s₁ m = rest
        ∧ (∀ k, k < o.toNat ∨ m < k → getO s₁ k = getO s k)
        ∧ s₁.length = LastOrder + 1)) := by
  by_cases hr : o < 0 ∨ (LastOrder : Int) < o
  · unfold allocate_pages at hall
    rw [if_pos hr] at hall
    exact absurd (congrArg Prod.fst hall) (by simp)
  · push_neg at hr
    refine ⟨hr.1, hr.2, ?_⟩
    set t := o.toNat with htdef
    have ht : t ≤ LastOrder := by omega
    unfold allocate_pages at hall
    rw [if_neg (by push_neg; exact hr)] at hall
    rcases hsp : iterative_split s t with ⟨r, s'⟩
    rw [hsp] at hall
    rcases r with _ | q
    · exact absurd (congrArg Prod.fst hall) (by simp)
    · have hq : q = p := by
        have := congrArg Prod.fst hall
        simpa using this
      subst hq
      have hs₁ : s₁ = remove_free_block s' t q := by
        have := congrArg Prod.snd hall
        simpa using this.symm
      -- now analyse iterative_split
      unfold iterative_split at hsp
      rcases hhd : (getO s t).head? with _ | p₀
      · rw [hhd] at hsp
        have h0 : getO s t = [] := List.head?_eq_none_iff.1 hhd
        rcases findUp_spec (LastOrder + 1) (t + 1) s (by omega) (by omega) with
          ⟨hfa, _⟩ | ⟨hfa, hfb, hfc, hfd⟩
        · rw [hfa] at hsp
          rw [if_pos (by omega)] at hsp
          exact absurd (congrArg Prod.fst hsp) (by simp)
        · set m := findUp (LastOrder + 1) (t + 1) s with hmdef
          rw [if_neg (by omega)] at hsp
          obtain ⟨b, rest, hbr⟩ : ∃ b rest, getO s m = b :: rest := by
            cases hcl : getO s m with
            | nil => exact absurd hcl hfc
            | cons b rest => exact ⟨b, rest, rfl⟩
          have hemp : ∀ k, t ≤ k → k < m → getO s k = [] := by
            intro k hk1 hk2
            rcases Nat.eq_or_lt_of_le hk1 with he | he
            · rw [← he]; exact h0
            · exact hfd k (by omega) hk2
          obtain ⟨hA, hB, hC, hD, hE⟩ := splitDown_desc (m - t) t m s b rest
            LastOrder (by omega) (by omega) hfb hlen hbr hemp (by omega)
          have hpq : q = b := by
            have h1 := congrArg Prod.fst hsp
            simp only at h1
            rw [hA] at h1
            simpa using h1.symm
          subst hpq
          have hs' : s' = splitDown t LastOrder m s := by
            have := congrArg Prod.snd hsp
            simpa using this.symm
          right
          refine ⟨m, rest, by omega, hfb, hbr, hemp, ?_, ?_, ?_, ?_, ?_⟩
          · rw [hs₁, hs']
            unfold remove_free_block
            rw [getO_setO_self _ (by omega), hA]
            unfold removeFirst
            rw [if_pos rfl]
          · intro k hk1 hk2
            rw [hs₁, hs']
            unfold remove_free_block
            rw [getO_setO_ne _ (by omega)]
            exact hB k hk1 hk2
          · rw [hs₁, hs']
            unfold remove_free_block
            rw [getO_setO_ne _ (by omega)]
            exact hC
          · intro k hk
            rw [hs₁, hs']
            unfold remove_free_block
            rw [getO_setO_ne _ (by rcases hk with hk | hk <;> omega)]
            exact hD k hk
          · rw [hs₁, hs']
            unfold remove_free_block
            rw [length_setO]
            exact hE
      · rw [hhd] at hsp
        have hqs : q = p₀ ∧ s' = s := by
          constructor
          · have := congrArg Prod.fst hsp
            simpa using this.symm
          · have := congrArg Prod.snd hsp
            simpa using this.symm
        obtain ⟨hq1, hq2⟩ := hqs
        rw [hq2] at hs₁
        left
        obtain ⟨rest, hrest⟩ : ∃ rest, getO s t = q :: rest := by
          cases hcl : getO s t with
          | nil => rw [hcl] at hhd; exact absurd hhd (by simp)
          | cons b rest =>
            rw [hcl] at hhd
            simp only [List.head?_cons, Option.some.injEq] at hhd
            refine ⟨rest, ?_⟩
            rw [hhd, ← hq1]
        refine ⟨rest, hrest, ?_⟩
        rw [hs₁]
        unfold remove_free_block
        rw [hrest]
        unfold removeFirst
        rw [if_pos rfl]

end Buddy

namespace Buddy

theorem setO_self {s : State} {n : Nat} : setO s n (getO s n) = s := by
  apply state_ext (length_setO s n _)
  intro j
  by_cases hj : j = n
  · subst hj
    by_cases hl : j < s.length
    · exact getO_setO_self _ hl
    · unfold setO getO
      rw [List.set_eq_of_length_le (by omega)]
  · exact getO_setO_ne _ hj

theorem get_buddy_of_aligned {k b : Nat} (h : 2 ^ (k + 1) ∣ b) :
    get_buddy k b = b + 2 ^ k := by
  obtain ⟨c, rfl⟩ := h
  unfold get_buddy
  have he : 2 ^ (k + 1) * c = c * 2 ^ (k + 1) := by ring
  rw [he, (xor_pow_char k c).1]

/-- On an invariant-satisfying state, merging up from a listed block is a
no-op: its buddy is not free (P3), so the very first test fails. -/
theorem mergeUp_at_listed : ∀ (fuel m b : Nat) (s : State), Inv s →
    b ∈ getO s m → m ≤ LastOrder → mergeUp fuel m (some b) s = s := by
  intro fuel m b s hI hb hm
  obtain ⟨hlen, hs, ha, hd, hnb⟩ := hI
  cases fuel with
  | zero => rfl
  | succ f =>
    rcases Nat.eq_or_lt_of_le hm with he | hlt
    · rw [he]
      exact mergeUp_stop (f + 1) b s
    · rw [mergeUp_step f m b s hlt,
        merge_buddies_fail hs ha hd hlt hb (hnb m hlt b hb), mergeUp_none]

theorem merge_cascade : ∀ (d k fuel : Nat) (u s : State) (t m b : Nat)
    (rest : List Nat),
    Inv s →
    t < m → m ≤ LastOrder → getO s m = b :: rest →
    (∀ j, t ≤ j → j < m → getO s j = []) →
    t ≤ k → k + d = m → 1 ≤ d → d ≤ fuel →
    u.length = LastOrder + 1 →
    (∀ j, j < t ∨ m < j → getO u j = getO s j) →
    (∀ j, t ≤ j → j < k → getO u j = []) →
    getO u k = [b, b + 2 ^ k] →
    (∀ j, k < j → j < m → getO u j = [b + 2 ^ j]) →
    getO u m = rest →
    mergeUp fuel k (some b) u = s := by
  intro d
  induction d with
  | zero => intro k fuel u s t m b rest _ _ _ _ _ _ _ h1 _ _ _ _ _ _ _; omega
  | succ d ih =>
    intro k fuel u s t m b rest hI htm hm hsm hemp htk hkd _ hfu hulen hout hlow huk hmid hum
    obtain ⟨hlen, hs, ha, hd, hnb⟩ := hI
    have hk16 : k < LastOrder := by omega
    have hposk : 0 < 2 ^ k := Nat.pos_pow_of_pos k (by norm_num)
    have hbm : b ∈ getO s m := by rw [hsm]; exact List.mem_cons_self b rest
    have hbal : 2 ^ m ∣ b := ha m hm b hbm
    have hbal1 : 2 ^ (k + 1) ∣ b :=
      dvd_trans (pow_dvd_pow 2 (by omega : k + 1 ≤ m)) hbal
    have hbud : get_buddy k b = b + 2 ^ k := get_buddy_of_aligned hbal1
    have hbrest : b ∉ rest := by
      have hsmp := hs m hm
      rw [hsm] at hsmp
      have := (List.pairwise_cons.1 hsmp).1
      intro hc
      exact absurd rfl (Nat.ne_of_lt (this b hc))
    -- uniqueness of b's listing in u
    have huniq : ∀ j, j ≤ LastOrder → b ∈ getO u j → j = k := by
      intro j hj hbj
      by_cases hjlo : j < t
      · rw [hout j (Or.inl hjlo)] at hbj
        have := single_listed hd hj hm hbj hbm
        omega
      · by_cases hjhi : m < j
        · rw [hout j (Or.inr hjhi)] at hbj
          have := single_listed hd hj hm hbj hbm
          omega
        · push_neg at hjlo hjhi
          by_cases hjk : j = k
          · exact hjk
          · exfalso
            rcases Nat.lt_or_ge j k with hjk2 | hjk2
            · rw [hlow j hjlo hjk2] at hbj
              exact absurd hbj (List.not_mem_nil b)
            · rcases Nat.lt_or_ge j m with hjm | hjm
              · rw [hmid j (by omega) hjm] at hbj
                have : b = b + 2 ^ j := by
                  simpa using hbj
                have : 0 < 2 ^ j := Nat.pos_pow_of_pos j (by norm_num)
                omega
              · have hjme : j = m := by omega
                rw [hjme, hum] at hbj
                exact hbrest hbj
    have htest : nextFree u b = some (b + 2 ^ k) := by
      rw [nextFree_eq_of_unique (by omega) (by rw [huk]; exact List.mem_cons_self _ _) huniq]
      rw [huk]
      unfold succAfter
      rw [if_pos rfl]
      rfl
    have hblt : b < get_buddy k b := by omega
    have hmerge : merge_buddies u k b
        = (some b, insert_free_block (setO u k []) (k + 1) b) := by
      rw [merge_buddies_lt hblt, if_pos (by rw [hbud]; exact htest)]
      have hrb : remove_buddies u k b = setO u k [] := by
        unfold remove_buddies
        rw [huk]
        unfold removeBuddies
        rw [if_pos rfl]
        rfl
      rw [hrb]
    set u' := insert_free_block (setO u k []) (k + 1) b with hudef
    have hulen' : u'.length = LastOrder + 1 := by
      rw [hudef]
      unfold insert_free_block
      rw [length_setO, length_setO, hulen]
    have hru'k1 : getO u' (k + 1) = insertSorted b (getO u (k + 1)) := by
      rw [hudef]
      unfold insert_free_block
      rw [getO_setO_self _ (by rw [length_setO, hulen]; omega),
        getO_setO_ne _ (by omega)]
    have hru'k : getO u' k = [] := by
      rw [hudef]
      unfold insert_free_block
      rw [getO_setO_ne _ (by omega), getO_setO_self _ (by rw [hulen]; omega)]
    have hru' : ∀ j, j ≠ k → j ≠ k + 1 → getO u' j = getO u j := by
      intro j hj hj1
      rw [hudef]
      unfold insert_free_block
      rw [getO_setO_ne _ hj1, getO_setO_ne _ hj]
    obtain ⟨f, rfl⟩ : ∃ f, fuel = f + 1 := ⟨fuel - 1, by omega⟩
    rw [mergeUp_step f k b u hk16, hmerge]
    rcases Nat.eq_or_lt_of_le (show k + 1 ≤ m by omega) with hk1m | hk1m
    · -- final merge: u' coincides with s
      have hu's : u' = s := by
        apply state_ext (by rw [hulen', hlen])
        intro j
        by_cases hjk1 : j = k + 1
        · rw [hjk1, hru'k1, hk1m, hum, hsm]
          apply insertSorted_eq_cons
          have hsmp := hs m hm
          rw [hsm] at hsmp
          exact (List.pairwise_cons.1 hsmp).1
        · by_cases hjk : j = k
          · rw [hjk, hru'k]
            rw [hemp k htk (by omega)]
          · rw [hru' j hjk hjk1]
            by_cases hjlo : j < t
            · exact hout j (Or.inl hjlo)
            · by_cases hjhi : m < j
              · exact hout j (Or.inr hjhi)
              · push_neg at hjlo hjhi
                have hjlt : j < k := by omega
                rw [hlow j hjlo hjlt, hemp j hjlo (by omega)]
        done
      rw [hu's]
      apply mergeUp_at_listed
      · exact ⟨hlen, hs, ha, hd, hnb⟩
      · rw [hk1m]
        exact hbm
      · omega
    · -- recurse
      apply ih (k + 1) f u' s t m b rest ⟨hlen, hs, ha, hd, hnb⟩ htm hm hsm hemp
        (by omega) (by omega) (by omega) (by omega) hulen'
      · intro j hj
        rw [hru' j (by omega) (by rcases hj with hj | hj <;> omega)]
        exact hout j hj
      · intro j hj1 hj2
        by_cases hjk : j = k
        · rw [hjk, hru'k]
        · rw [hru' j hjk (by omega)]
          exact hlow j hj1 (by omega)
      · rw [hru'k1, hmid (k + 1) (by omega) hk1m]
        unfold insertSorted
        rw [if_neg (by omega)]
      · intro j hj1 hj2
        rw [hru' j (by omega) (by omega)]
        exact hmid j (by omega) hj2
      · rw [hru' m (by omega) (by omega), hum]

end Buddy

/-- C4: for every allocator state satisfying the global invariants and every
order, if `allocate_pages(order)` returns a page `p`, then
`free_pages(p, order)` restores the allocator exactly: the resulting state
equals the state before the allocation, hence the same invariants hold and
each order's total of free pages equals its total before the allocation. -/
theorem Buddy.claim_C4 (s : Buddy.State) (o : Int) (p : Nat) (hI : Buddy.Inv s)
    (hall : (Buddy.allocate_pages s o).1 = some p) :
    Buddy.free_pages (Buddy.allocate_pages s o).2 p o.toNat = s
    ∧ Buddy.Inv (Buddy.free_pages (Buddy.allocate_pages s o).2 p o.toNat)
    ∧ (∀ n, (Buddy.getO (Buddy.free_pages (Buddy.allocate_pages s o).2 p o.toNat) n).length * 2 ^ n
          = (Buddy.getO s n).length * 2 ^ n) := by
  suffices heq : Buddy.free_pages (Buddy.allocate_pages s o).2 p o.toNat = s by
    refine ⟨heq, ?_, fun n => by rw [heq]⟩
    rw [heq]
    exact hI
  rcases he : Buddy.allocate_pages s o with ⟨r, s₁⟩
  rw [he] at hall
  simp only at hall
  subst hall
  have hlen : s.length = Buddy.LastOrder + 1 := hI.1
  obtain ⟨ho1, ho2, hcase⟩ := Buddy.allocate_desc hlen he
  show Buddy.free_pages s₁ p o.toNat = s
  set t := o.toNat with htdef
  have ho2' : o ≤ (16 : Int) := by
    have hlo : (Buddy.LastOrder : Int) = 16 := by norm_num [Buddy.LastOrder]
    omega
  have ht : t ≤ Buddy.LastOrder := by
    unfold Buddy.LastOrder
    omega
  have hposn : 0 < 2 ^ t := Nat.pos_pow_of_pos t (by norm_num)
  rcases hcase with ⟨rest, hrest, hs₁⟩ | ⟨m, rest, htm, hm, hsm, hemp, hr1, hr2, hr3, hr4, hlen1⟩
  · -- direct allocation from the head of a non-empty list
    have hins : Buddy.insert_free_block s₁ t p = s := by
      unfold Buddy.insert_free_block
      have hg : Buddy.getO s₁ t = rest := by
        rw [hs₁]
        exact Buddy.getO_setO_self _ (by omega)
      rw [hg]
      have hic : Buddy.insertSorted p rest = p :: rest := by
        apply Buddy.insertSorted_eq_cons
        have hsp := hI.2.1 t ht
        rw [hrest] at hsp
        exact (List.pairwise_cons.1 hsp).1
      rw [hic, hs₁]
      unfold Buddy.setO
      rw [List.set_set]
      have : p :: rest = Buddy.getO s t := hrest.symm
      rw [this]
      exact Buddy.setO_self
    show Buddy.mergeUp Buddy.LastOrder t (some p) (Buddy.insert_free_block s₁ t p) = s
    rw [hins]
    apply Buddy.mergeUp_at_listed Buddy.LastOrder t p s hI
    · rw [hrest]
      exact List.mem_cons_self p rest
    · exact ht
  · -- allocation through the split chain
    have hlen1' : s₁.length = Buddy.LastOrder + 1 := hlen1
    set u := Buddy.insert_free_block s₁ t p with hudef
    have hulen : u.length = Buddy.LastOrder + 1 := by
      rw [hudef]
      unfold Buddy.insert_free_block
      rw [Buddy.length_setO, hlen1']
    have hut : Buddy.getO u t = [p, p + 2 ^ t] := by
      rw [hudef]
      unfold Buddy.insert_free_block
      rw [Buddy.getO_setO_self _ (by omega), hr1]
      unfold Buddy.insertSorted
      rw [if_neg (by omega)]
    have hu : ∀ j, j ≠ t → Buddy.getO u j = Buddy.getO s₁ j := by
      intro j hj
      rw [hudef]
      unfold Buddy.insert_free_block
      exact Buddy.getO_setO_ne _ hj
    show Buddy.mergeUp Buddy.LastOrder t (some p) u = s
    apply Buddy.merge_cascade (m - t) t Buddy.LastOrder u s t m p rest hI htm hm hsm
      hemp (Nat.le_refl t) (by omega) (by omega) (by omega) hulen
    · intro j hj
      rw [hu j (by rcases hj with hj | hj <;> omega)]
      exact hr4 j hj
    · intro j hj1 hj2
      omega
    · exact hut
    · intro j hj1 hj2
      rw [hu j (by omega)]
      exact hr2 j hj1 hj2
    · rw [hu m (by omega)]
      exact hr3

/-- Witness for C4: allocating the single order-0 block at PFN 4 and freeing
it restores the one-block state. -/
theorem Buddy.claim_C4_witness :
    Buddy.free_pages
        (Buddy.allocate_pages (Buddy.setO Buddy.initState 0 [4]) 0).2 4 0
      = Buddy.setO Buddy.initState 0 [4] :=
  (Buddy.claim_C4 (Buddy.setO Buddy.initState 0 [4]) 0 4
    ⟨by decide, by unfold Buddy.Sorted16; decide, by unfold Buddy.Aligned16; decide,
     by unfold Buddy.DisjFree Buddy.blockDisj; decide,
     by unfold Buddy.NoFreeBuddies; decide⟩
    (by decide)).1

namespace Buddy

theorem bit_carve {n p : Nat} (h : 2 ^ n ∣ p) :
    (2 ^ n &&& p ≠ 0 → 2 ^ (n + 1) ∣ p + 2 ^ n)
    ∧ (2 ^ n &&& p = 0 → 2 ^ (n + 1) ∣ p) := by
  obtain ⟨c, rfl⟩ := h
  have hpos : 0 < 2 ^ n := Nat.pos_pow_of_pos n (by norm_num)
  have hand : 2 ^ n &&& 2 ^ n * c = 2 ^ n * ((2 ^ n * c).testBit n).toNat :=
    Nat.two_pow_and (2 ^ n * c) n
  have hdiv : 2 ^ n * c / 2 ^ n = c := Nat.mul_div_cancel_left c hpos
  have htb : (2 ^ n * c).testBit n = decide (c % 2 = 1) := by
    rw [Nat.testBit_to_div_mod, hdiv]
  rcases Nat.even_or_odd c with ⟨a, rfl⟩ | ⟨a, rfl⟩
  · have hc2 : (a + a) % 2 = 0 := by omega
    have hz : 2 ^ n &&& 2 ^ n * (a + a) = 0 := by
      rw [hand, htb]
      simp [hc2]
    constructor
    · intro hcon
      exact absurd hz hcon
    · intro _
      exact ⟨a, by ring⟩
  · have hc2 : (2 * a + 1) % 2 = 1 := by omega
    have hz : 2 ^ n &&& 2 ^ n * (2 * a + 1) = 2 ^ n := by
      rw [hand, htb]
      simp [hc2]
    constructor
    · intro _
      exact ⟨a + 1, by ring⟩
    · intro hcon
      rw [hz] at hcon
      omega
  done

theorem bit_mod {k count : Nat} :
    (2 ^ k &&& count ≠ 0 → count % 2 ^ (k + 1) = 2 ^ k + count % 2 ^ k)
    ∧ (2 ^ k &&& count = 0 → count % 2 ^ (k + 1) = count % 2 ^ k) := by
  have hpos : 0 < 2 ^ k := Nat.pos_pow_of_pos k (by norm_num)
  have hm : count % 2 ^ (k + 1) = count % 2 ^ k + 2 ^ k * (count / 2 ^ k % 2) := by
    rw [pow_succ]
    exact Nat.mod_mul
  have hand : 2 ^ k &&& count = 2 ^ k * (count.testBit k).toNat :=
    Nat.two_pow_and count k
  have htb : count.testBit k = decide (count / 2 ^ k % 2 = 1) :=
    Nat.testBit_to_div_mod
  rcases Nat.mod_two_eq_zero_or_one (count / 2 ^ k) with h2 | h2
  · have hz : 2 ^ k &&& count = 0 := by
      rw [hand, htb]
      simp [h2]
    constructor
    · intro hcon
      exact absurd hz hcon
    · intro _
      rw [hm, h2]
      omega
  · have hz : 2 ^ k &&& count = 2 ^ k := by
      rw [hand, htb]
      simp [h2]
    constructor
    · intro _
      rw [hm, h2]
      omega
    · intro hcon
      rw [hz] at hcon
      omega

theorem rd_to_blockDisj {s : State} {pfn n : Nat}
    (hfree : ∀ a, pfn ≤ a → a < pfn + 2 ^ n → ¬ inFree s a) :
    ∀ m, m ≤ LastOrder → ∀ q ∈ getO s m, blockDisj pfn n q m := by
  intro m hm q hq
  by_contra hc
  unfold blockDisj at hc
  push_neg at hc
  have hposn : 0 < 2 ^ n := Nat.pos_pow_of_pos n (by norm_num)
  have hposm : 0 < 2 ^ m := Nat.pos_pow_of_pos m (by norm_num)
  have hmem : inFree s (max pfn q) := ⟨m, hm, q, hq, ⟨by omega, by omega⟩⟩
  exact hfree (max pfn q) (by omega) (by omega) hmem

theorem insert_top_inv {s : State} {b : Nat} (hI : Inv s)
    (hal : 2 ^ LastOrder ∣ b)
    (hdisj : ∀ m, m ≤ LastOrder → ∀ q ∈ getO s m, blockDisj b LastOrder q m) :
    Inv (insert_free_block s LastOrder b)
    ∧ (∀ a, inFree (insert_free_block s LastOrder b) a
        → inFree s a ∨ inBlock b LastOrder a) := by
  obtain ⟨hlen, hs, ha, hd, hnb⟩ := hI
  have hnotmem : ∀ m, m ≤ LastOrder → b ∉ getO s m := by
    intro m hm hc
    have := hdisj m hm b hc
    unfold blockDisj at this
    have : 0 < 2 ^ m := Nat.pos_pow_of_pos m (by norm_num)
    have : 0 < 2 ^ LastOrder := Nat.pos_pow_of_pos LastOrder (by norm_num)
    omega
  have hr1n : getO (insert_free_block s LastOrder b) LastOrder
      = insertSorted b (getO s LastOrder) := by
    unfold insert_free_block
    exact getO_setO_self _ (by omega)
  have hr1 : ∀ j, j ≠ LastOrder → getO (insert_free_block s LastOrder b) j = getO s j := by
    intro j hj
    unfold insert_free_block
    exact getO_setO_ne _ hj
  have hmem1 : ∀ j x, j ≤ LastOrder →
      (x ∈ getO (insert_free_block s LastOrder b) j
        ↔ (j = LastOrder ∧ x = b) ∨ x ∈ getO s j) := by
    intro j x hj
    by_cases hjn : j = LastOrder
    · subst hjn
      rw [hr1n, insertSorted_mem]
      constructor
      · rintro (rfl | h)
        · exact Or.inl ⟨rfl, rfl⟩
        · exact Or.inr h
      · rintro (⟨_, rfl⟩ | h)
        · exact Or.inl rfl
        · exact Or.inr h
    · rw [hr1 j hjn]
      constructor
      · exact Or.inr
      · rintro (⟨rfl, _⟩ | h)
        · exact absurd rfl hjn
        · exact h
  refine ⟨⟨?_, ?_, ?_, ?_, ?_⟩, ?_⟩
  · unfold insert_free_block
    rw [length_setO, hlen]
  · intro j hj
    by_cases hjn : j = LastOrder
    · subst hjn
      rw [hr1n]
      exact insertSorted_pairwise (hs LastOrder hj) (hnotmem LastOrder hj)
    · rw [hr1 j hjn]
      exact hs j hj
  · intro j hj x hx
    rcases (hmem1 j x hj).1 hx with ⟨rfl, rfl⟩ | hx
    · exact hal
    · exact ha j hj x hx
  · intro m hm m' hm' p hp q hq
    rcases (hmem1 m p hm).1 hp with ⟨rfl, rfl⟩ | hp'
    · rcases (hmem1 m' q hm').1 hq with ⟨rfl, rfl⟩ | hq'
      · exact Or.inl ⟨rfl, rfl⟩
      · exact Or.inr (hdisj m' hm' q hq')
    · rcases (hmem1 m' q hm').1 hq with ⟨rfl, rfl⟩ | hq'
      · have := hdisj m hm p hp'
        unfold blockDisj at this ⊢
        omega
      · exact hd m hm m' hm' p hp' q hq'
  · intro j hj p hp hbp
    have hj' : j ≤ LastOrder := Nat.le_of_lt hj
    rcases (hmem1 j p hj').1 hp with ⟨hje, _⟩ | hp'
    · exact absurd hj (by omega)
    · rcases (hmem1 j (get_buddy j p) hj').1 hbp with ⟨hje, _⟩ | hbp'
      · exact absurd hj (by omega)
      · exact hnb j hj p hp' hbp'
  · intro a
    rintro ⟨m, hm, p, hp, hip⟩
    rcases (hmem1 m p hm).1 hp with ⟨rfl, rfl⟩ | hp'
    · exact Or.inr hip
    · exact Or.inl ⟨m, hm, p, hp', hip⟩

end Buddy

namespace Buddy

theorem allocate_inv {s : State} {o : Int} {p : Nat} {s₁ : State}
    (hI : Inv s) (hall : allocate_pages s o = (some p, s₁)) :
    Inv s₁ ∧ o.toNat ≤ LastOrder ∧ 2 ^ o.toNat ∣ p
    ∧ (∀ a, inFree s₁ a → inFree s a)
    ∧ (∀ a, inBlock p o.toNat a → inFree s a)
    ∧ (∀ m, m ≤ LastOrder → ∀ q ∈ getO s₁ m, blockDisj p o.toNat q m) := by
  obtain ⟨hlen, hs, ha, hd, hnb⟩ := hI
  obtain ⟨ho1, ho2, hcase⟩ := allocate_desc hlen hall
  set t := o.toNat with htdef
  have ho2' : o ≤ (16 : Int) := by
    have hlo : (LastOrder : Int) = 16 := by norm_num [LastOrder]
    omega
  have ht : t ≤ LastOrder := by
    unfold LastOrder
    omega
  have hpost : 0 < 2 ^ t := Nat.pos_pow_of_pos t (by norm_num)
  rcases hcase with ⟨rest, hrest, hs₁⟩ | ⟨m, rest, htm, hm, hsm, hemp, hr1, hr2, hr3, hr4, hlen1⟩
  · -- head of a non-empty list at t
    have hpm : p ∈ getO s t := by rw [hrest]; exact List.mem_cons_self p rest
    have hrt : getO s₁ t = rest := by
      rw [hs₁]
      exact getO_setO_self _ (by omega)
    have hrne : ∀ j, j ≠ t → getO s₁ j = getO s j := by
      intro j hj
      rw [hs₁]
      exact getO_setO_ne _ hj
    have hrsub : ∀ j x, x ∈ getO s₁ j → x ∈ getO s j := by
      intro j x hx
      by_cases hj : j = t
      · subst hj
        rw [hrt] at hx
        rw [hrest]
        exact List.mem_cons_of_mem p hx
      · rw [hrne j hj] at hx
        exact hx
    have hrgt : ∀ x ∈ rest, p < x := by
      have := hs t ht
      rw [hrest] at this
      exact (List.pairwise_cons.1 this).1
    refine ⟨⟨?_, ?_, ?_, ?_, ?_⟩, ht, ha t ht p hpm, ?_, ?_, ?_⟩
    · rw [hs₁, length_setO, hlen]
    · intro j hj
      by_cases hjt : j = t
      · rw [hjt, hrt]
        have := hs t ht
        rw [hrest] at this
        exact (List.pairwise_cons.1 this).2
      · rw [hrne j hjt]
        exact hs j hj
    · intro j hj x hx
      exact ha j hj x (hrsub j x hx)
    · intro n hn m' hm' x hx y hy
      exact hd n hn m' hm' x (hrsub n x hx) y (hrsub m' y hy)
    · intro n hn x hx hbx
      exact hnb n hn x (hrsub n x hx) (hrsub n _ hbx)
    · intro a
      rintro ⟨n, hn, x, hx, hix⟩
      exact ⟨n, hn, x, hrsub n x hx, hix⟩
    · intro a hab
      exact ⟨t, ht, p, hpm, hab⟩
    · intro m' hm' q hq
      by_cases hj : m' = t
      · rw [hj] at hq ⊢
        rw [hrt] at hq
        have hqs : q ∈ getO s t := by
          rw [hrest]
          exact List.mem_cons_of_mem p hq
        rcases hd t ht t ht q hqs p hpm with ⟨_, hqp⟩ | hbd
        · exact absurd hqp (by have := hrgt q hq; omega)
        · unfold blockDisj at hbd ⊢
          omega
      · rw [hrne m' hj] at hq
        rcases hd m' hm' t ht q hq p hpm with ⟨hte, _⟩ | hbd
        · exact absurd hte hj
        · unfold blockDisj at hbd ⊢
          omega
  · -- split chain
    have hpm : p ∈ getO s m := by rw [hsm]; exact List.mem_cons_self p rest
    have hpal : 2 ^ m ∣ p := ha m hm p hpm
    have hptal : 2 ^ t ∣ p := dvd_trans (pow_dvd_pow 2 (by omega)) hpal
    have hposm : 0 < 2 ^ m := Nat.pos_pow_of_pos m (by norm_num)
    have hrgt : ∀ x ∈ rest, p < x := by
      have := hs m hm
      rw [hsm] at this
      exact (List.pairwise_cons.1 this).1
    have hple : 2 ^ (t + 1) ≤ 2 ^ m := pow_le_pow_right (by norm_num) (by omega)
    -- membership characterisation of s₁
    have factB : ∀ j x, j ≤ LastOrder → x ∈ getO s₁ j →
        (x ∈ getO s j ∧ (j = m → x ≠ p) ∧ (j < t ∨ m ≤ j))
        ∨ (t ≤ j ∧ j < m ∧ x = p + 2 ^ j) := by
      intro j x hj hx
      by_cases hjt : j = t
      · subst hjt
        rw [hr1] at hx
        simp only [List.mem_singleton] at hx
        exact Or.inr ⟨Nat.le_refl _, by omega, hx⟩
      · by_cases hjm : j = m
        · subst hjm
          rw [hr3] at hx
          refine Or.inl ⟨by rw [hsm]; exact List.mem_cons_of_mem p hx, ?_, by omega⟩
          intro _
          have := hrgt x hx
          omega
        · by_cases hjmid : t < j ∧ j < m
          · rw [hr2 j hjmid.1 hjmid.2] at hx
            simp only [List.mem_singleton] at hx
            exact Or.inr ⟨by omega, hjmid.2, hx⟩
          · have hjout : j < t ∨ m < j := by omega
            rw [hr4 j hjout] at hx
            exact Or.inl ⟨hx, fun hc => absurd hc hjm, by omega⟩
    have hmid_dvd : ∀ j, t ≤ j → j < m → 2 ^ j ∣ p + 2 ^ j := by
      intro j hj1 hj2
      exact Dvd.dvd.add (dvd_trans (pow_dvd_pow 2 (by omega)) hpal) dvd_rfl
    -- block of a half lies inside the block of p at order m
    have hhalf_sub : ∀ j a, t ≤ j → j < m → inBlock (p + 2 ^ j) j a → inBlock p m a := by
      intro j a hj1 hj2 hib
      unfold inBlock at hib ⊢
      have h1 : 2 ^ j + 2 ^ j ≤ 2 ^ m := by
        have : (2 : Nat) ^ (j + 1) ≤ 2 ^ m := pow_le_pow_right (by norm_num) (by omega)
        rw [pow_succ] at this
        omega
      omega
    -- disjointness of an old block from the removed block (p, m)
    have hold_disj : ∀ j x, j ≤ LastOrder → x ∈ getO s j → (j = m → x ≠ p) →
        blockDisj x j p m := by
      intro j x hj hxm hne
      rcases hd j hj m hm x hxm p hpm with ⟨hje, hxp⟩ | hbd
      · exact absurd hxp (hne hje)
      · exact hbd
    refine ⟨⟨?_, ?_, ?_, ?_, ?_⟩, ht, hptal, ?_, ?_, ?_⟩
    · exact hlen1
    · intro j hj
      by_cases hjt : j = t
      · subst hjt
        rw [hr1]
        simp
      · by_cases hjm : j = m
        · subst hjm
          rw [hr3]
          have := hs j hj
          rw [hsm] at this
          exact (List.pairwise_cons.1 this).2
        · by_cases hjmid : t < j ∧ j < m
          · rw [hr2 j hjmid.1 hjmid.2]
            simp
          · rw [hr4 j (by omega)]
            exact hs j hj
    · intro j hj x hx
      rcases factB j x hj hx with ⟨hxm, _, _⟩ | ⟨hj1, hj2, rfl⟩
      · exact ha j hj x hxm
      · exact hmid_dvd j hj1 (by omega)
    · intro n hn m' hm' x hx y hy
      rcases factB n x hn hx with ⟨hxm, hxne, hxout⟩ | ⟨hx1, hx2, rfl⟩
      · rcases factB m' y hm' hy with ⟨hym, hyne, hyout⟩ | ⟨hy1, hy2, rfl⟩
        · exact hd n hn m' hm' x hxm y hym
        · right
          have hbd := hold_disj n x hn hxm hxne
          unfold blockDisj at hbd ⊢
          have h1 : 2 ^ m' + 2 ^ m' ≤ 2 ^ m := by
            have : (2 : Nat) ^ (m' + 1) ≤ 2 ^ m := pow_le_pow_right (by norm_num) (by omega)
            rw [pow_succ] at this
            omega
          have h2 : 0 < 2 ^ m' := Nat.pos_pow_of_pos m' (by norm_num)
          have h3 : 0 < 2 ^ n := Nat.pos_pow_of_pos n (by norm_num)
          omega
      · rcases factB m' y hm' hy with ⟨hym, hyne, hyout⟩ | ⟨hy1, hy2, rfl⟩
        · right
          have hbd := hold_disj m' y hm' hym hyne
          unfold blockDisj at hbd ⊢
          have h1 : 2 ^ n + 2 ^ n ≤ 2 ^ m := by
            have : (2 : Nat) ^ (n + 1) ≤ 2 ^ m := pow_le_pow_right (by norm_num) (by omega)
            rw [pow_succ] at this
            omega
          have h2 : 0 < 2 ^ n := Nat.pos_pow_of_pos n (by norm_num)
          have h3 : 0 < 2 ^ m' := Nat.pos_pow_of_pos m' (by norm_num)
          omega
        · rcases Nat.lt_trichotomy n m' with hnm | hnm | hnm
          · right
            left
            have h1 : 2 ^ n + 2 ^ n ≤ 2 ^ m' := by
              have : (2 : Nat) ^ (n + 1) ≤ 2 ^ m' := pow_le_pow_right (by norm_num) (by omega)
              rw [pow_succ] at this
              omega
            omega
          · left
            exact ⟨hnm, by rw [hnm]⟩
          · right
            right
            have h1 : 2 ^ m' + 2 ^ m' ≤ 2 ^ n := by
              have : (2 : Nat) ^ (m' + 1) ≤ 2 ^ n := pow_le_pow_right (by norm_num) (by omega)
              rw [pow_succ] at this
              omega
            omega
    · intro n hn x hx hbx
      have hn' : n ≤ LastOrder := Nat.le_of_lt hn
      rcases factB n x hn' hx with ⟨hxm, hxne, hxout⟩ | ⟨hx1, hx2, rfl⟩
      · rcases factB n (get_buddy n x) hn' hbx with ⟨hbm, hbne, hbout⟩ | ⟨hb1, hb2, hbe⟩
        · exact hnb n hn x hxm hbm
        · omega
      · rcases factB n (get_buddy n (p + 2 ^ n)) hn' hbx with ⟨hbm, hbne, hbout⟩ | ⟨hb1, hb2, hbe⟩
        · omega
        · exact absurd hbe (by have := get_buddy_ne n (p + 2 ^ n); omega)
    · intro a
      rintro ⟨n, hn, x, hx, hix⟩
      rcases factB n x hn hx with ⟨hxm, _, _⟩ | ⟨hx1, hx2, rfl⟩
      · exact ⟨n, hn, x, hxm, hix⟩
      · exact ⟨m, hm, p, hpm, hhalf_sub n a hx1 hx2 hix⟩
    · intro a hab
      refine ⟨m, hm, p, hpm, ?_⟩
      unfold inBlock at hab ⊢
      have h1 : 2 ^ t ≤ 2 ^ m := pow_le_pow_right (by norm_num) (by omega)
      omega
    · intro m' hm' q hq
      rcases factB m' q hm' hq with ⟨hqm, hqne, hqout⟩ | ⟨hq1, hq2, rfl⟩
      · have hbd := hold_disj m' q hm' hqm hqne
        unfold blockDisj at hbd ⊢
        have h1 : 2 ^ t ≤ 2 ^ m := pow_le_pow_right (by norm_num) (by omega)
        omega
      · left
        have h1 : 2 ^ t ≤ 2 ^ m' := pow_le_pow_right (by norm_num) (by omega)
        omega

end Buddy

namespace Buddy

theorem iterative_split_none_snd (s : State) (t : Nat) (ht : t ≤ LastOrder)
    (h : (iterative_split s t).1 = none) : (iterative_split s t).2 = s := by
  rcases hh : (getO s t).head? with _ | p
  · rcases findUp_spec (LastOrder + 1) (t + 1) s (by omega) (by omega) with
      ⟨ha, hb⟩ | ⟨ha, hb, hc, hd⟩
    · simp only [iterative_split, hh, ha]
      norm_num
    · exfalso
      set o' := findUp (LastOrder + 1) (t + 1) s with ho'
      have hne := splitDown_ne_nil LastOrder o' s t (by omega) (by omega) hc
      obtain ⟨q, rest, hqr⟩ : ∃ q rest, getO (splitDown t LastOrder o' s) t = q :: rest := by
        cases hcl : getO (splitDown t LastOrder o' s) t with
        | nil => exact absurd hcl hne
        | cons q rest => exact ⟨q, rest, rfl⟩
      have hsome : (iterative_split s t).1 = some q := by
        simp only [iterative_split, hh]
        rw [if_neg (by omega)]
        simp [hqr]
      rw [hsome] at h
      exact absurd h (by simp)
  · have hsome : (iterative_split s t).1 = some p := by
      simp only [iterative_split, hh]
    rw [hsome] at h
    exact absurd h (by simp)

theorem allocate_none_state {s : State} {o : Int} {s₁ : State}
    (hall : allocate_pages s o = (none, s₁)) : s₁ = s := by
  by_cases hr : o < 0 ∨ (LastOrder : Int) < o
  · unfold allocate_pages at hall
    rw [if_pos hr] at hall
    exact (congrArg Prod.snd hall).symm
  · push_neg at hr
    have hlo : (LastOrder : Int) = 16 := by norm_num [LastOrder]
    have hlo2 : LastOrder = 16 := rfl
    have ht : o.toNat ≤ LastOrder := by omega
    unfold allocate_pages at hall
    rw [if_neg (by push_neg; exact hr)] at hall
    rcases hsp : iterative_split s o.toNat with ⟨r, s'⟩
    rw [hsp] at hall
    rcases r with _ | q
    · have h1 : (iterative_split s o.toNat).1 = none := by rw [hsp]
      have h2 := iterative_split_none_snd s o.toNat ht h1
      rw [hsp] at h2
      have h3 : s' = s₁ := by
        have := congrArg Prod.snd hall
        simpa using this
      rw [← h3]
      exact h2
    · exact absurd (congrArg Prod.fst hall) (by simp)

theorem blockDisj_of_no_common {x k q m : Nat}
    (h : ∀ a, inBlock x k a → ¬ inBlock q m a) : blockDisj x k q m := by
  by_contra hc
  unfold blockDisj at hc
  push_neg at hc
  have hx : 0 < 2 ^ k := Nat.pos_pow_of_pos k (by norm_num)
  have hq : 0 < 2 ^ m := Nat.pos_pow_of_pos m (by norm_num)
  rcases Nat.le_total x q with hle | hle
  · exact h q ⟨hle, by omega⟩ ⟨Nat.le_refl q, by omega⟩
  · exact h x ⟨Nat.le_refl x, by omega⟩ ⟨hle, by omega⟩

theorem not_inFree_of_allocdisj {s : State} {x k : Nat}
    (h : ∀ m, m ≤ LastOrder → ∀ q ∈ getO s m, blockDisj x k q m) :
    ∀ a, inBlock x k a → ¬ inFree s a := by
  rintro a hax ⟨m, hm, q, hq, haq⟩
  have hbd := h m hm q hq
  unfold blockDisj at hbd
  unfold inBlock at hax haq
  omega

theorem pairwise_erase_rel {α : Type} [BEq α] [LawfulBEq α] {R : α → α → Prop} {A : List α}
    {x y : α} (hp : A.Pairwise R) (hx : x ∈ A) (hy : y ∈ A.erase x) :
    R x y ∨ R y x := by
  obtain ⟨l₁, l₂, _, hA, hE⟩ := List.exists_erase_eq hx
  rw [hA] at hp
  rw [hE] at hy
  rw [List.pairwise_append] at hp
  rcases List.mem_append.1 hy with h1 | h2
  · exact Or.inr (hp.2.2 y h1 x (List.mem_cons_self x l₂))
  · exact Or.inl ((List.pairwise_cons.1 hp.2.1).1 y h2)

end Buddy

namespace Buddy

theorem insertLoop1_inv : ∀ (fuel order lsb pfn count : Nat) (s : State)
    (s' : State) (order' lsb' pfn' count' : Nat),
    insertLoop1 fuel order lsb pfn count s = (s', order', lsb', pfn', count') →
    Inv s → lsb = 2 ^ order → order ≤ LastOrder → LastOrder - order ≤ fuel →
    2 ^ order ∣ pfn →
    (∀ a, pfn ≤ a → a < pfn + count → ¬ inFree s a) →
    Inv s' ∧ lsb' = 2 ^ order' ∧ order' ≤ LastOrder ∧ 2 ^ order' ∣ pfn'
    ∧ (count' < lsb' ∨ order' = LastOrder)
    ∧ pfn ≤ pfn' ∧ pfn' + count' = pfn + count
    ∧ (∀ a, pfn' ≤ a → a < pfn' + count' → ¬ inFree s' a)
    ∧ (∀ a, inFree s' a → inFree s a ∨ (pfn ≤ a ∧ a < pfn')) := by
  intro fuel
  induction fuel with
  | zero =>
    intro order lsb pfn count s s' order' lsb' pfn' count' heq hI hlsb hole hfu hal hRD
    obtain ⟨rfl, rfl, rfl, rfl, rfl⟩ : s = s' ∧ order = order' ∧ lsb = lsb'
        ∧ pfn = pfn' ∧ count = count' := by
      have h1 := congrArg Prod.fst heq
      have h2 := congrArg (fun r => r.2.1) heq
      have h3 := congrArg (fun r => r.2.2.1) heq
      have h4 := congrArg (fun r => r.2.2.2.1) heq
      have h5 := congrArg (fun r => r.2.2.2.2) heq
      exact ⟨h1, h2, h3, h4, h5⟩
    have hoe : order = LastOrder := by omega
    exact ⟨hI, hlsb, hole, hal, Or.inr hoe, Nat.le_refl _, rfl, hRD,
      fun a h => Or.inl h⟩
  | succ fuel ih =>
    intro order lsb pfn count s s' order' lsb' pfn' count' heq hI hlsb hole hfu hal hRD
    by_cases hg : lsb ≤ count ∧ order < LastOrder
    · have hpos : 0 < 2 ^ order := Nat.pos_pow_of_pos order (by norm_num)
      have hl2 : 2 * lsb = 2 ^ (order + 1) := by rw [hlsb, pow_succ]; ring
      by_cases hb : lsb &&& pfn ≠ 0
      · -- carve a block of 2^order at pfn
        have hstep : insertLoop1 (fuel + 1) order lsb pfn count s
            = insertLoop1 fuel (order + 1) (2 * lsb) (pfn + lsb) (count - lsb)
                (free_pages s pfn order) := by
          show (if lsb ≤ count ∧ order < LastOrder then
                  if lsb &&& pfn ≠ 0 then
                    insertLoop1 fuel (order + 1) (2 * lsb) (pfn + lsb) (count - lsb)
                      (free_pages s pfn order)
                  else insertLoop1 fuel (order + 1) (2 * lsb) pfn count s
                else (s, order, lsb, pfn, count)) = _
          rw [if_pos hg, if_pos hb]
        rw [hstep] at heq
        have hdisj : ∀ m, m ≤ LastOrder → ∀ q ∈ getO s m, blockDisj pfn order q m := by
          apply rd_to_blockDisj
          intro a h1 h2
          exact hRD a h1 (by omega)
        obtain ⟨hI₁, hfp₁⟩ := free_pages_inv hI (by omega) hal hdisj
        have hal₁ : 2 ^ (order + 1) ∣ pfn + lsb := by
          rw [hlsb]
          exact (bit_carve hal).1 (by rw [← hlsb]; exact hb)
        have hRD₁ : ∀ a, pfn + lsb ≤ a → a < pfn + lsb + (count - lsb)
            → ¬ inFree (free_pages s pfn order) a := by
          intro a h1 h2 hc
          rcases (hfp₁ a).1 hc with hold | hblk
          · exact hRD a (by omega) (by omega) hold
          · unfold inBlock at hblk
            rw [hlsb] at h1
            omega
        have hres := ih (order + 1) (2 * lsb) (pfn + lsb) (count - lsb)
          (free_pages s pfn order) s' order' lsb' pfn' count' heq hI₁ hl2
          (by omega) (by omega) hal₁ hRD₁
        obtain ⟨hI', hlsb', hole', hal', hexit', hple', hsum', hRD', hfp'⟩ := hres
        refine ⟨hI', hlsb', hole', hal', hexit', by omega, by omega, hRD', ?_⟩
        intro a ha
        rcases hfp' a ha with h1 | h1
        · rcases (hfp₁ a).1 h1 with h2 | h2
          · exact Or.inl h2
          · unfold inBlock at h2
            right
            rw [hlsb] at hple'
            omega
        · exact Or.inr ⟨by omega, h1.2⟩
      · -- bit clear: skip, alignment improves
        have hstep : insertLoop1 (fuel + 1) order lsb pfn count s
            = insertLoop1 fuel (order + 1) (2 * lsb) pfn count s := by
          show (if lsb ≤ count ∧ order < LastOrder then
                  if lsb &&& pfn ≠ 0 then
                    insertLoop1 fuel (order + 1) (2 * lsb) (pfn + lsb) (count - lsb)
                      (free_pages s pfn order)
                  else insertLoop1 fuel (order + 1) (2 * lsb) pfn count s
                else (s, order, lsb, pfn, count)) = _
          rw [if_pos hg, if_neg hb]
        rw [hstep] at heq
        push_neg at hb
        have hal₁ : 2 ^ (order + 1) ∣ pfn := by
          exact (bit_carve hal).2 (by rw [← hlsb]; exact hb)
        exact ih (order + 1) (2 * lsb) pfn count s s' order' lsb' pfn' count' heq hI hl2
          (by omega) (by omega) hal₁ hRD
    · have hstep : insertLoop1 (fuel + 1) order lsb pfn count s
          = (s, order, lsb, pfn, count) := by
        show (if lsb ≤ count ∧ order < LastOrder then
                if lsb &&& pfn ≠ 0 then
                  insertLoop1 fuel (order + 1) (2 * lsb) (pfn + lsb) (count - lsb)
                    (free_pages s pfn order)
                else insertLoop1 fuel (order + 1) (2 * lsb) pfn count s
              else (s, order, lsb, pfn, count)) = _
        rw [if_neg hg]
      rw [hstep] at heq
      obtain ⟨rfl, rfl, rfl, rfl, rfl⟩ : s = s' ∧ order = order' ∧ lsb = lsb'
          ∧ pfn = pfn' ∧ count = count' := by
        have h1 := congrArg Prod.fst heq
        have h2 := congrArg (fun r => r.2.1) heq
        have h3 := congrArg (fun r => r.2.2.1) heq
        have h4 := congrArg (fun r => r.2.2.2.1) heq
        have h5 := congrArg (fun r => r.2.2.2.2) heq
        exact ⟨h1, h2, h3, h4, h5⟩
      push_neg at hg
      have hexit : count < lsb ∨ order = LastOrder := by
        by_cases hlc : lsb ≤ count
        · exact Or.inr (by have := hg hlc; omega)
        · exact Or.inl (by omega)
      exact ⟨hI, hlsb, hole, hal, hexit, Nat.le_refl _, rfl, hRD, fun a h => Or.inl h⟩

end Buddy

namespace Buddy

theorem insertLoop2_inv : ∀ (fuel pfn count : Nat) (s : State)
    (s' : State) (pfn' count' : Nat),
    insertLoop2 fuel pfn count s = (s', pfn', count') →
    Inv s → (2 ^ LastOrder < count → 2 ^ LastOrder ∣ pfn) →
    count ≤ 2 ^ LastOrder * (fuel + 1) →
    (∀ a, pfn ≤ a → a < pfn + count → ¬ inFree s a) →
    Inv s' ∧ count' ≤ 2 ^ LastOrder
    ∧ (∃ k, pfn' = pfn + 2 ^ LastOrder * k)
    ∧ pfn' + count' = pfn + count
    ∧ (∀ a, pfn' ≤ a → a < pfn' + count' → ¬ inFree s' a)
    ∧ (∀ a, inFree s' a → inFree s a ∨ (pfn ≤ a ∧ a < pfn')) := by
  intro fuel
  induction fuel with
  | zero =>
    intro pfn count s s' pfn' count' heq hI hal hfu hRD
    obtain ⟨rfl, rfl, rfl⟩ : s = s' ∧ pfn = pfn' ∧ count = count' := by
      have h1 := congrArg Prod.fst heq
      have h2 := congrArg (fun r => r.2.1) heq
      have h3 := congrArg (fun r => r.2.2) heq
      exact ⟨h1, h2, h3⟩
    exact ⟨hI, by omega, ⟨0, by omega⟩, rfl, hRD, fun a h => Or.inl h⟩
  | succ fuel ih =>
    intro pfn count s s' pfn' count' heq hI hal hfu hRD
    have hpos : 0 < 2 ^ LastOrder := Nat.pos_pow_of_pos LastOrder (by norm_num)
    by_cases hg : 2 ^ LastOrder < count
    · have hstep : insertLoop2 (fuel + 1) pfn count s
          = insertLoop2 fuel (pfn + 2 ^ LastOrder) (count - 2 ^ LastOrder)
              (insert_free_block s LastOrder pfn) := by
        show (if 2 ^ LastOrder < count then
                insertLoop2 fuel (pfn + 2 ^ LastOrder) (count - 2 ^ LastOrder)
                  (insert_free_block s LastOrder pfn)
              else (s, pfn, count)) = _
        rw [if_pos hg]
      rw [hstep] at heq
      have haldvd := hal hg
      have hdisj : ∀ m, m ≤ LastOrder → ∀ q ∈ getO s m, blockDisj pfn LastOrder q m := by
        apply rd_to_blockDisj
        intro a h1 h2
        exact hRD a h1 (by omega)
      obtain ⟨hI₁, hfp₁⟩ := insert_top_inv hI haldvd hdisj
      have hRD₁ : ∀ a, pfn + 2 ^ LastOrder ≤ a
          → a < pfn + 2 ^ LastOrder + (count - 2 ^ LastOrder)
          → ¬ inFree (insert_free_block s LastOrder pfn) a := by
        intro a h1 h2 hc
        rcases hfp₁ a hc with hold | hblk
        · exact hRD a (by omega) (by omega) hold
        · unfold inBlock at hblk
          omega
      have hmul : 2 ^ LastOrder * (fuel + 1 + 1)
          = 2 ^ LastOrder * (fuel + 1) + 2 ^ LastOrder := by ring
      have hres := ih (pfn + 2 ^ LastOrder) (count - 2 ^ LastOrder)
        (insert_free_block s LastOrder pfn) s' pfn' count' heq hI₁
        (fun _ => Dvd.dvd.add haldvd dvd_rfl)
        (by omega) hRD₁
      obtain ⟨hI', hc', ⟨k, hk⟩, hsum', hRD', hfp'⟩ := hres
      have hmul2 : 2 ^ LastOrder * (k + 1) = 2 ^ LastOrder * k + 2 ^ LastOrder := by ring
      refine ⟨hI', hc', ⟨k + 1, by omega⟩, by omega, hRD', ?_⟩
      intro a ha
      rcases hfp' a ha with h1 | h1
      · rcases hfp₁ a h1 with h2 | h2
        · exact Or.inl h2
        · unfold inBlock at h2
          right
          omega
      · exact Or.inr ⟨by omega, h1.2⟩
    · have hstep : insertLoop2 (fuel + 1) pfn count s = (s, pfn, count) := by
        show (if 2 ^ LastOrder < count then
                insertLoop2 fuel (pfn + 2 ^ LastOrder) (count - 2 ^ LastOrder)
                  (insert_free_block s LastOrder pfn)
              else (s, pfn, count)) = _
        rw [if_neg hg]
      rw [hstep] at heq
      obtain ⟨rfl, rfl, rfl⟩ : s = s' ∧ pfn = pfn' ∧ count = count' := by
        have h1 := congrArg Prod.fst heq
        have h2 := congrArg (fun r => r.2.1) heq
        have h3 := congrArg (fun r => r.2.2) heq
        exact ⟨h1, h2, h3⟩
      exact ⟨hI, by omega, ⟨0, by omega⟩, rfl, hRD, fun a h => Or.inl h⟩

end Buddy

namespace Buddy

theorem insertLoop3_zero : ∀ (fuel order pfn count : Nat) (s : State),
    insertLoop3 fuel order 0 pfn count s = s := by
  intro fuel order pfn count s
  cases fuel with
  | zero => rfl
  | succ fuel =>
    show (if (0 : Nat) < 0 then _ else s) = s
    rw [if_neg (by omega)]

theorem insertLoop3_inv : ∀ (fuel order pfn count : Nat) (s : State),
    Inv s → order ≤ LastOrder → 2 ^ order ∣ pfn →
    (∀ a, pfn ≤ a → a < pfn + count % 2 ^ order → ¬ inFree s a) →
    Inv (insertLoop3 fuel order (2 ^ order) pfn count s)
    ∧ (∀ a, inFree (insertLoop3 fuel order (2 ^ order) pfn count s) a
        → inFree s a ∨ (pfn ≤ a ∧ a < pfn + count % 2 ^ order)) := by
  intro fuel
  induction fuel with
  | zero =>
    intro order pfn count s hI hole hal hRD
    exact ⟨hI, fun a h => Or.inl h⟩
  | succ fuel ih =>
    intro order pfn count s hI hole hal hRD
    have hpos : 0 < 2 ^ order := Nat.pos_pow_of_pos order (by norm_num)
    have hstep : insertLoop3 (fuel + 1) order (2 ^ order) pfn count s
        = if 0 < 2 ^ order then
            (if 2 ^ order / 2 &&& count ≠ 0 then
              insertLoop3 fuel (order - 1) (2 ^ order / 2) (pfn + 2 ^ order / 2) count
                (free_pages s pfn (order - 1))
            else insertLoop3 fuel (order - 1) (2 ^ order / 2) pfn count s)
          else s := rfl
    rw [hstep, if_pos hpos]
    cases order with
    | zero =>
      have hdq : 2 ^ 0 / 2 = 0 := by norm_num
      rw [hdq]
      have hand : (0 : Nat) &&& count = 0 := Nat.zero_and count
      rw [if_neg (by rw [hand]; omega)]
      rw [insertLoop3_zero]
      exact ⟨hI, fun a h => Or.inl h⟩
    | succ k =>
      have hdq : 2 ^ (k + 1) / 2 = 2 ^ k := by
        rw [pow_succ]
        exact Nat.mul_div_cancel _ (by norm_num)
      rw [hdq]
      have hposk : 0 < 2 ^ k := Nat.pos_pow_of_pos k (by norm_num)
      have halk : 2 ^ k ∣ pfn := dvd_trans (pow_dvd_pow 2 (by omega)) hal
      by_cases hbit : 2 ^ k &&& count ≠ 0
      · rw [if_pos hbit]
        have hmod : count % 2 ^ (k + 1) = 2 ^ k + count % 2 ^ k := bit_mod.1 hbit
        have hdisj : ∀ m, m ≤ LastOrder → ∀ q ∈ getO s m, blockDisj pfn k q m := by
          apply rd_to_blockDisj
          intro a h1 h2
          exact hRD a h1 (by omega)
        obtain ⟨hI₁, hfp₁⟩ := free_pages_inv hI (by omega) halk hdisj
        have hRD₁ : ∀ a, pfn + 2 ^ k ≤ a → a < pfn + 2 ^ k + count % 2 ^ k
            → ¬ inFree (free_pages s pfn k) a := by
          intro a h1 h2 hc
          rcases (hfp₁ a).1 hc with hold | hblk
          · exact hRD a (by omega) (by omega) hold
          · unfold inBlock at hblk
            omega
        have hal₁ : 2 ^ k ∣ pfn + 2 ^ k := Dvd.dvd.add halk dvd_rfl
        obtain ⟨hI', hfp'⟩ := ih k (pfn + 2 ^ k) count (free_pages s pfn k)
          hI₁ (by omega) hal₁ hRD₁
        refine ⟨hI', ?_⟩
        intro a ha
        rcases hfp' a ha with h1 | h1
        · rcases (hfp₁ a).1 h1 with h2 | h2
          · exact Or.inl h2
          · unfold inBlock at h2
            exact Or.inr ⟨by omega, by omega⟩
        · exact Or.inr ⟨by omega, by omega⟩
      · rw [if_neg hbit]
        push_neg at hbit
        have hmod : count % 2 ^ (k + 1) = count % 2 ^ k := bit_mod.2 hbit
        obtain ⟨hI', hfp'⟩ := ih k pfn count s hI (by omega) halk (by rw [← hmod]; exact hRD)
        refine ⟨hI', ?_⟩
        intro a ha
        rcases hfp' a ha with h1 | h1
        · exact Or.inl h1
        · exact Or.inr ⟨h1.1, by omega⟩

end Buddy

namespace Buddy

theorem insert_body_inv {s : State} {pfn count : Nat} (hI : Inv s)
    (hRD : ∀ a, pfn ≤ a → a < pfn + count → ¬ inFree s a) :
    Inv (insert_body s pfn count)
    ∧ (∀ a, inFree (insert_body s pfn count) a
        → inFree s a ∨ (pfn ≤ a ∧ a < pfn + count)) := by
  rcases h1 : insertLoop1 LastOrder 0 1 pfn count s with ⟨s₁, o₁, l₁, p₁, c₁⟩
  obtain ⟨hI₁, hl₁, ho₁, hal₁, hexit₁, hple₁, hsum₁, hRD₁, hfp₁⟩ :=
    insertLoop1_inv LastOrder 0 1 pfn count s s₁ o₁ l₁ p₁ c₁ h1 hI (by norm_num)
      (Nat.zero_le _) (by omega) (by norm_num) hRD
  rcases h2 : insertLoop2 c₁ p₁ c₁ s₁ with ⟨s₂, p₂, c₂⟩
  have hle16 : 2 ^ o₁ ≤ 2 ^ LastOrder := Nat.pow_le_pow_right (by norm_num) ho₁
  have hal2 : 2 ^ LastOrder < c₁ → 2 ^ LastOrder ∣ p₁ := by
    intro hc
    rcases hexit₁ with he | he
    · rw [hl₁] at he
      omega
    · rw [← he]
      exact hal₁
  have hfu2 : c₁ ≤ 2 ^ LastOrder * (c₁ + 1) := by
    have hp16 : 0 < 2 ^ LastOrder := Nat.pos_pow_of_pos LastOrder (by norm_num)
    have h := Nat.le_mul_of_pos_left (c₁ + 1) hp16
    omega
  obtain ⟨hI₂, hc₂, ⟨k, hk⟩, hsum₂, hRD₂, hfp₂⟩ :=
    insertLoop2_inv c₁ p₁ c₁ s₁ s₂ p₂ c₂ h2 hI₁ hal2 hfu2 hRD₁
  have hal3 : 2 ^ o₁ ∣ p₂ := by
    rw [hk]
    exact Dvd.dvd.add hal₁ ((pow_dvd_pow 2 ho₁).mul_right k)
  have hRD₃ : ∀ a, p₂ ≤ a → a < p₂ + c₂ % 2 ^ o₁ → ¬ inFree s₂ a := by
    intro a ha1 ha2
    have := Nat.mod_le c₂ (2 ^ o₁)
    exact hRD₂ a ha1 (by omega)
  obtain ⟨hI₃, hfp₃⟩ := insertLoop3_inv (LastOrder + 1) o₁ p₂ c₂ s₂ hI₂ ho₁ hal3 hRD₃
  have hbody : insert_body s pfn count = insertLoop3 (LastOrder + 1) o₁ (2 ^ o₁) p₂ c₂ s₂ := by
    simp only [insert_body, h1, h2, hl₁]
  have hmodle := Nat.mod_le c₂ (2 ^ o₁)
  refine ⟨?_, ?_⟩
  · rw [hbody]
    exact hI₃
  · intro a ha
    rw [hbody] at ha
    rcases hfp₃ a ha with h1 | h1
    · rcases hfp₂ a h1 with h2 | h2
      · rcases hfp₁ a h2 with h3 | h3
        · exact Or.inl h3
        · exact Or.inr ⟨h3.1, by omega⟩
      · exact Or.inr ⟨by omega, by omega⟩
    · exact Or.inr ⟨by omega, by omega⟩

end Buddy

namespace Buddy

theorem Inv_initState : Inv initState := by
  refine ⟨rfl, ?_, ?_, ?_, ?_⟩
  · intro n hn
    rw [getO_initState]
    exact List.Pairwise.nil
  · intro n hn p hp
    rw [getO_initState] at hp
    exact absurd hp (List.not_mem_nil p)
  · intro n hn m hm p hp
    rw [getO_initState] at hp
    exact absurd hp (List.not_mem_nil p)
  · intro n hn p hp
    rw [getO_initState] at hp
    exact absurd hp (List.not_mem_nil p)

theorem reach_strong {s : State} {A : List (Nat × Nat)} (h : reach s A) :
    Inv s ∧ AllocOk s A := by
  induction h with
  | init =>
    exact ⟨Inv_initState,
      ⟨fun bn hbn => absurd hbn (List.not_mem_nil bn), List.Pairwise.nil⟩⟩
  | insert s A pfn count s' hr hpre hins ih =>
    obtain ⟨hI, hok⟩ := ih
    have hs' : s' = insert_body s pfn count := by
      unfold insert_free_pages at hins
      by_cases hov : pfn < U64MAX - count
      · rw [if_pos hov] at hins
        exact (Option.some.inj hins).symm
      · rw [if_neg hov] at hins
        exact absurd hins (by simp)
    obtain ⟨hI', hfp⟩ := insert_body_inv hI (fun a h1 h2 => (hpre a h1 h2).1)
    subst hs'
    refine ⟨hI', ?_, hok.2⟩
    intro bn hbn
    obtain ⟨hbn1, hbn2, hbn3⟩ := hok.1 bn hbn
    refine ⟨hbn1, hbn2, ?_⟩
    intro m hm q hq
    apply blockDisj_of_no_common
    intro a hab haq
    have hfree : inFree (insert_body s pfn count) a := ⟨m, hm, q, hq, haq⟩
    rcases hfp a hfree with h1 | h1
    · exact not_inFree_of_allocdisj hbn3 a hab h1
    · exact (hpre a h1.1 h1.2).2 ⟨bn, hbn, hab⟩
  | alloc s A order p s₁ hr hall ih =>
    obtain ⟨hI, hok⟩ := ih
    obtain ⟨hI₁, ht, halp, hshr, hnew, hdisj₁⟩ := allocate_inv hI hall
    refine ⟨hI₁, ?_, ?_⟩
    · intro bn hbn
      rcases List.mem_cons.1 hbn with rfl | hbn'
      · exact ⟨ht, halp, hdisj₁⟩
      · obtain ⟨h1, h2, h3⟩ := hok.1 bn hbn'
        refine ⟨h1, h2, ?_⟩
        intro m hm q hq
        apply blockDisj_of_no_common
        intro a hab haq
        have hfr : inFree s₁ a := ⟨m, hm, q, hq, haq⟩
        exact not_inFree_of_allocdisj h3 a hab (hshr a hfr)
    · rw [List.pairwise_cons]
      refine ⟨?_, hok.2⟩
      intro bn hbn
      obtain ⟨h1, h2, h3⟩ := hok.1 bn hbn
      apply blockDisj_of_no_common
      intro a hap hab
      exact not_inFree_of_allocdisj h3 a hab (hnew a hap)
  | allocFail s A order s₁ hr hall ih =>
    rw [allocate_none_state hall]
    exact ih
  | free s A b n hr hmem ih =>
    obtain ⟨hI, hok⟩ := ih
    have hbst := hok.1 (b, n) hmem
    have hbn1 : n ≤ LastOrder := hbst.1
    have hbn2 : 2 ^ n ∣ b := hbst.2.1
    have hbn3 : ∀ m, m ≤ LastOrder → ∀ q ∈ getO s m, blockDisj b n q m := hbst.2.2
    obtain ⟨hI', hfp⟩ := free_pages_inv hI hbn1 hbn2 hbn3
    refine ⟨hI', ?_, ?_⟩
    · intro bn hbn
      have hbnA : bn ∈ A := List.mem_of_mem_erase hbn
      obtain ⟨h1, h2, h3⟩ := hok.1 bn hbnA
      refine ⟨h1, h2, ?_⟩
      intro m hm q hq
      apply blockDisj_of_no_common
      intro a hab haq
      have hfr : inFree (free_pages s b n) a := ⟨m, hm, q, hq, haq⟩
      rcases (hfp a).1 hfr with h4 | h4
      · exact not_inFree_of_allocdisj h3 a hab h4
      · have hp1 : 0 < 2 ^ n := Nat.pos_pow_of_pos n (by norm_num)
        have hp2 : 0 < 2 ^ bn.2 := Nat.pos_pow_of_pos bn.2 (by norm_num)
        rcases pairwise_erase_rel hok.2 hmem hbn with h5 | h5
        · have h5' : blockDisj b n bn.1 bn.2 := h5
          unfold blockDisj at h5'
          unfold inBlock at h4 hab
          omega
        · have h5' : blockDisj bn.1 bn.2 b n := h5
          unfold blockDisj at h5'
          unfold inBlock at h4 hab
          omega
    · exact List.Pairwise.sublist (List.erase_sublist _ _) hok.2

/-- C2: every state reachable by a sequence of public allocator calls
(`insert_free_pages`, `allocate_pages`, `free_pages`) that respects the
stated preconditions satisfies P1 (each per-order free list strictly
PFN-ascending, hence duplicate-free), P2 (every listed block order-aligned)
and P3 (no two order-`n` buddies simultaneously free for `n < LastOrder`). -/
theorem claim_C2 {s : State} {A : List (Nat × Nat)} (h : reach s A) :
    Sorted16 s ∧ Aligned16 s ∧ NoFreeBuddies s := by
  obtain ⟨⟨_, h1, h2, _, h3⟩, _⟩ := reach_strong h
  exact ⟨h1, h2, h3⟩

/-- Witness for C2 at the freshly constructed allocator. -/
theorem claim_C2_witness :
    Sorted16 initState ∧ Aligned16 initState ∧ NoFreeBuddies initState :=
  claim_C2 reach.init

end Buddy
